import Mathlib

/-!
Verification of the `stashy` adaptive frontier scheduler.

This file gives a shallow embedding, in Lean 4, of the parts of the
`stashy` crawler that the specification's claims talk about:

* `src/python/stashy/frontier.py` — URL canonicalization, geo-signal
  scoring, per-candidate scoring and frontier expansion;
* `src/python/stashy/db.py` — the SQL row transitions `mark_url_failed`
  and `mark_url_done` of the queue state machine;
* `src/python/stashy/worker.py` — the `process_one` pipeline, modelled
  as a pure function from the outcomes of its effectful stages to the
  queue events it emits.

Modelling conventions:

* Python `str` values are modelled as `List Char` (`Str` below).
  `str.lower()` is modelled on the ASCII range only; every concrete
  string appearing in the claims is ASCII.
* Python `float` arithmetic is idealized as exact rational arithmetic
  (`ℚ`).  The claims are about the scoring formulas, not about binary
  rounding, and every constant of the source is a short decimal.
* The CPython 3.11 `urllib.parse` helpers used by the source
  (`urlparse`, `urlunparse`, `urljoin`) are modelled faithfully from
  their stdlib implementation, except that the `ValueError` paths for
  malformed bracketed (IPv6) hosts and the non-ASCII netloc check are
  omitted: no claim involves such inputs.
* Python regular expressions appear in two places; both are modelled as
  exact backtracking matchers specialised to the concrete pattern.
-/

set_option linter.unusedVariables false
set_option maxRecDepth 16000

attribute [local semireducible] Rat.add Rat.mul Rat.inv Rat.sub List.merge List.mergeSort

namespace Stashy

/-- Characters of a Python `str`, modelled as a list of Lean characters. -/
abbrev Str := List Char

/-- Lowercase an ASCII character, as Python `str.lower` does on the ASCII
range.  (Python also lowercases non-ASCII letters; no claim depends on
that.) -/
def pyLowerChar (c : Char) : Char :=
  if c = 'A' then 'a' else if c = 'B' then 'b' else if c = 'C' then 'c' else
  if c = 'D' then 'd' else if c = 'E' then 'e' else if c = 'F' then 'f' else
  if c = 'G' then 'g' else if c = 'H' then 'h' else if c = 'I' then 'i' else
  if c = 'J' then 'j' else if c = 'K' then 'k' else if c = 'L' then 'l' else
  if c = 'M' then 'm' else if c = 'N' then 'n' else if c = 'O' then 'o' else
  if c = 'P' then 'p' else if c = 'Q' then 'q' else if c = 'R' then 'r' else
  if c = 'S' then 's' else if c = 'T' then 't' else if c = 'U' then 'u' else
  if c = 'V' then 'v' else if c = 'W' then 'w' else if c = 'X' then 'x' else
  if c = 'Y' then 'y' else if c = 'Z' then 'z' else c

/-- Python `str.lower()`. -/
def pyLower (s : Str) : Str := s.map pyLowerChar

/-- The uppercase ASCII letters, the only characters `pyLowerChar` moves. -/
def ucChars : Str :=
  ['A', 'B', 'C', 'D', 'E', 'F', 'G', 'H', 'I', 'J', 'K', 'L', 'M',
   'N', 'O', 'P', 'Q', 'R', 'S', 'T', 'U', 'V', 'W', 'X', 'Y', 'Z']

theorem pyLowerChar_of_not_uc {c : Char} (hc : c ∉ ucChars) : pyLowerChar c = c := by
  simp only [ucChars, List.mem_cons, not_or, List.not_mem_nil] at hc
  obtain ⟨h1, h2, h3, h4, h5, h6, h7, h8, h9, h10, h11, h12, h13, h14, h15, h16,
    h17, h18, h19, h20, h21, h22, h23, h24, h25, h26, -⟩ := hc
  simp only [pyLowerChar, if_neg h1, if_neg h2, if_neg h3, if_neg h4, if_neg h5,
    if_neg h6, if_neg h7, if_neg h8, if_neg h9, if_neg h10, if_neg h11, if_neg h12,
    if_neg h13, if_neg h14, if_neg h15, if_neg h16, if_neg h17, if_neg h18,
    if_neg h19, if_neg h20, if_neg h21, if_neg h22, if_neg h23, if_neg h24,
    if_neg h25, if_neg h26]

theorem pyLowerChar_of_uc : ∀ c ∈ ucChars,
    'a' ≤ pyLowerChar c ∧ pyLowerChar c ≤ 'z' := by decide

/-- Either `pyLowerChar` fixes a character, or it sends an uppercase ASCII
letter to a lowercase ASCII letter. -/
theorem pyLowerChar_cases (c : Char) :
    pyLowerChar c = c ∨ ('a' ≤ pyLowerChar c ∧ pyLowerChar c ≤ 'z') := by
  by_cases hc : c ∈ ucChars
  · exact Or.inr (pyLowerChar_of_uc c hc)
  · exact Or.inl (pyLowerChar_of_not_uc hc)

theorem lc_not_uc {c : Char} (h1 : 'a' ≤ c) (hc : c ∈ ucChars) : False :=
  have hZ : c ≤ 'Z' := (by decide : ∀ d ∈ ucChars, d ≤ 'Z') c hc
  absurd (lt_of_lt_of_le (by decide : ('Z' : Char) < 'a') h1) (not_lt.mpr hZ)

theorem pyLowerChar_idem (c : Char) : pyLowerChar (pyLowerChar c) = pyLowerChar c := by
  rcases pyLowerChar_cases c with h | ⟨h1, h2⟩
  · rw [h, h]
  · exact pyLowerChar_of_not_uc fun hmem => lc_not_uc h1 hmem

theorem pyLower_idem (s : Str) : pyLower (pyLower s) = pyLower s := by
  simp only [pyLower, List.map_map]
  exact List.map_congr_left fun c _ => pyLowerChar_idem c

/-- Whitespace characters for Python `str.strip()` and for the regex
class `\s` (ASCII range). -/
def isPySpace (c : Char) : Bool :=
  c = ' ' || c = '\t' || c = '\n' || c = '\r' || c = '\x0b' || c = '\x0c'

/-- Python `str.strip()` with no argument. -/
def pyStrip (s : Str) : Str :=
  ((s.dropWhile isPySpace).reverse.dropWhile isPySpace).reverse

/-- First split of a list at a separator character: Python
`s.split(sep, 1)` when the separator occurs, `none` otherwise. -/
def splitOnFirst (sep : Char) : Str → Option (Str × Str)
  | [] => none
  | c :: rest =>
    if c = sep then some ([], rest)
    else
      match splitOnFirst sep rest with
      | none => none
      | some (a, b) => some (c :: a, b)

/-- Bool test that `s` begins with `pat` (Python `s.startswith(pat)`). -/
def leadsWith : Str → Str → Bool
  | _, [] => true
  | [], _ :: _ => false
  | c :: s, p :: ps => c = p && leadsWith s ps

/-- Bool test that `pat` occurs as a contiguous substring of `s`
(Python `pat in s`). -/
def containsStr : Str → Str → Bool
  | [], pat => pat.isEmpty
  | c :: rest, pat => leadsWith (c :: rest) pat || containsStr rest pat

/-- Python `s.split(sep)` for a one-character separator, keeping empty
pieces, as `str.split` does with an explicit separator. -/
def splitOnChar (sep : Char) : Str → List Str
  | [] => [[]]
  | c :: rest =>
    let r := splitOnChar sep rest
    if c = sep then [] :: r
    else
      match r with
      | [] => [[c]]
      | h :: t => (c :: h) :: t

/-- Split a list at its last separator occurrence:
`some (a, b)` with `l = a ++ sep :: b` and `sep ∉ b`, else `none`. -/
def splitOnLast (sep : Char) (l : Str) : Option (Str × Str) :=
  match splitOnFirst sep l.reverse with
  | none => none
  | some (rb, ra) => some (ra.reverse, rb.reverse)

/-- Python list slice `l[:k]` for a possibly negative `int` bound. -/
def pyTake {α : Type} (k : ℤ) (l : List α) : List α :=
  if 0 ≤ k then l.take k.toNat else l.take (l.length - (-k).toNat)

/-! ### Model of CPython 3.11 `urllib.parse`

The definitions below follow `Lib/urllib/parse.py` of CPython 3.11, the
interpreter the repository targets.  Only `allow_fragments=True` is
modelled, which is how the source always calls these helpers. -/

/-- Result record of `urllib.parse.urlsplit`. -/
structure SplitResult where
  scheme : Str
  netloc : Str
  path : Str
  query : Str
  fragment : Str
deriving Repr, DecidableEq

/-- Result record of `urllib.parse.urlparse`. -/
structure ParseResult where
  scheme : Str
  netloc : Str
  path : Str
  params : Str
  query : Str
  fragment : Str
deriving Repr, DecidableEq

/-- Characters allowed after the first character of a URL scheme
(`urllib.parse.scheme_chars`). -/
def schemeChars : Str :=
  "abcdefghijklmnopqrstuvwxyzABCDEFGHIJKLMNOPQRSTUVWXYZ0123456789+-.".toList

/-- ASCII letter test, as `url[0].isascii() and url[0].isalpha()`. -/
def isAsciiAlpha (c : Char) : Bool :=
  ('a' ≤ c && c ≤ 'z') || ('A' ≤ c && c ≤ 'Z')

/-- Scheme detection of `urlsplit`: a colon at position `> 0`, an ASCII
letter first, and only scheme characters before the colon.  On success
the scheme is returned lowercased together with the rest of the URL. -/
def splitScheme (url : Str) : Option (Str × Str) :=
  match splitOnFirst ':' url with
  | none => none
  | some (pre, post) =>
    match pre with
    | [] => none
    | c :: rest =>
      if isAsciiAlpha c && rest.all (fun d => schemeChars.contains d) then
        some (pyLower (c :: rest), post)
      else none

/-- Delimiters ending the netloc component (`_splitnetloc`). -/
def isNetlocDelim (c : Char) : Bool := c = '/' || c = '?' || c = '#'

/-- Netloc extraction of `urlsplit`: after a leading `//`, the netloc
runs up to the first `/`, `?` or `#`. -/
def splitNetloc (url : Str) : Str × Str :=
  if leadsWith url ("//".toList) then
    ((url.drop 2).takeWhile (fun c => !isNetlocDelim c),
     (url.drop 2).dropWhile (fun c => !isNetlocDelim c))
  else ([], url)

/-- The WHATWG C0-control-or-space class stripped from the left of a URL
by `urlsplit`. -/
def isC0OrSpace (c : Char) : Bool := c.toNat ≤ 32

/-- The unsafe bytes `\t`, `\r`, `\n`, removed from anywhere in a URL by
`urlsplit`. -/
def isUnsafeUrlByte (c : Char) : Bool := c = '\t' || c = '\r' || c = '\n'

/-- Total version of the first split: Python
`url.split(sep, 1) if sep in url else (url, '')`, the form `urlsplit`
uses for the fragment and query separators. -/
def splitOnFirstD (sep : Char) (l : Str) : Str × Str :=
  match splitOnFirst sep l with
  | some (a, b) => (a, b)
  | none => (l, [])

/-- Model of `urllib.parse.urlsplit(url, scheme=defaultScheme)`.  The
`ValueError` paths for unmatched or malformed bracketed hosts are
omitted; no claim involves bracketed hosts. -/
def urlsplitM (defaultScheme url0 : Str) : SplitResult :=
  let url1 := (url0.dropWhile isC0OrSpace).filter (fun c => !isUnsafeUrlByte c)
  let sr :=
    match splitScheme url1 with
    | some (s, rest) => (s, rest)
    | none => (defaultScheme, url1)
  let nr := splitNetloc sr.2
  let fr := splitOnFirstD '#' nr.2
  let qr := splitOnFirstD '?' fr.1
  ⟨sr.1, nr.1, qr.1, qr.2, fr.2⟩

/-- Model of `urllib.parse._splitparams`: parameters are split off after
the first `;` of the last path segment. -/
def splitParams (url : Str) : Str × Str :=
  match splitOnLast '/' url with
  | some (a, b) =>
    match splitOnFirst ';' b with
    | none => (url, [])
    | some (b1, b2) => (a ++ '/' :: b1, b2)
  | none =>
    match splitOnFirst ';' url with
    | none => (url, [])
    | some (u1, u2) => (u1, u2)

/-- Schemes for which `urlparse` interprets `;params`
(`urllib.parse.uses_params`). -/
def usesParams : List Str :=
  [[], "ftp".toList, "hdl".toList, "prospero".toList, "http".toList,
   "imap".toList, "https".toList, "shttp".toList, "rtsp".toList,
   "rtspu".toList, "sip".toList, "sips".toList, "mms".toList,
   "sftp".toList, "tel".toList]

/-- Model of `urllib.parse.urlparse(url, scheme=defaultScheme)`. -/
def urlparseM (defaultScheme url : Str) : ParseResult :=
  let s := urlsplitM defaultScheme url
  if usesParams.contains s.scheme && s.path.contains ';' then
    let pp := splitParams s.path
    ⟨s.scheme, s.netloc, pp.1, pp.2, s.query, s.fragment⟩
  else
    ⟨s.scheme, s.netloc, s.path, [], s.query, s.fragment⟩

/-- Model of `urllib.parse.urlunsplit`. -/
def urlunsplitM (scheme netloc path query fragment : Str) : Str :=
  let url1 :=
    if netloc ≠ [] ∨ leadsWith path ("//".toList) then
      '/' :: '/' :: (netloc ++
        (if path ≠ [] ∧ path.head? ≠ some '/' then '/' :: path else path))
    else path
  let url2 := if scheme ≠ [] then scheme ++ ':' :: url1 else url1
  let url3 := if query ≠ [] then url2 ++ '?' :: query else url2
  if fragment ≠ [] then url3 ++ '#' :: fragment else url3

/-- Model of `urllib.parse.urlunparse`. -/
def urlunparseM (scheme netloc path params query fragment : Str) : Str :=
  urlunsplitM scheme netloc
    (if params ≠ [] then path ++ ';' :: params else path) query fragment

/-- Schemes that support relative joining (`urllib.parse.uses_relative`). -/
def usesRelative : List Str :=
  [[], "ftp".toList, "http".toList, "gopher".toList, "nntp".toList,
   "imap".toList, "wais".toList, "file".toList, "https".toList,
   "shttp".toList, "mms".toList, "prospero".toList, "rtsp".toList,
   "rtspu".toList, "sftp".toList, "svn".toList, "svn+ssh".toList,
   "ws".toList, "wss".toList]

/-- Schemes that use a network location (`urllib.parse.uses_netloc`). -/
def usesNetloc : List Str :=
  [[], "ftp".toList, "http".toList, "gopher".toList, "nntp".toList,
   "telnet".toList, "imap".toList, "wais".toList, "file".toList,
   "mms".toList, "https".toList, "shttp".toList, "snews".toList,
   "prospero".toList, "rtsp".toList, "rtspu".toList, "rsync".toList,
   "svn".toList, "svn+ssh".toList, "sftp".toList, "nfs".toList,
   "git".toList, "git+ssh".toList, "ws".toList, "wss".toList]

/-- Dot-segment resolution loop of `urljoin`: `..` pops the last
resolved segment (ignoring underflow), `.` is skipped. -/
def resolveDots (segments : List Str) : List Str :=
  segments.foldl
    (fun acc seg =>
      if seg = "..".toList then acc.dropLast
      else if seg = ".".toList then acc
      else acc ++ [seg])
    []

/-- Middle-segment cleanup of `urljoin`:
`segments[1:-1] = filter(None, segments[1:-1])`. -/
def filterMiddle (segs : List Str) : List Str :=
  match segs with
  | [] => []
  | [a] => [a]
  | a :: b :: rest =>
    a :: (((b :: rest).dropLast.filter (fun s => s ≠ [])) ++ [(b :: rest).getLastD []])

/-- Model of `urllib.parse.urljoin(base, url)`. -/
def urljoinM (base url : Str) : Str :=
  if base = [] then url
  else if url = [] then base
  else
    let b := urlparseM [] base
    let u := urlparseM b.scheme url
    if u.scheme ≠ b.scheme ∨ ¬ usesRelative.contains u.scheme then url
    else if usesNetloc.contains u.scheme ∧ u.netloc ≠ [] then
      urlunparseM u.scheme u.netloc u.path u.params u.query u.fragment
    else
      let netloc := if usesNetloc.contains u.scheme then b.netloc else u.netloc
      if u.path = [] ∧ u.params = [] then
        urlunparseM u.scheme netloc b.path b.params
          (if u.query = [] then b.query else u.query) u.fragment
      else
        let baseParts0 := splitOnChar '/' b.path
        let baseParts :=
          if baseParts0.getLastD [] ≠ [] then baseParts0.dropLast else baseParts0
        let segments :=
          if u.path.head? = some '/' then splitOnChar '/' u.path
          else filterMiddle (baseParts ++ splitOnChar '/' u.path)
        let resolved0 := resolveDots segments
        let resolved :=
          if segments.getLastD [] = ".".toList ∨ segments.getLastD [] = "..".toList
          then resolved0 ++ [[]] else resolved0
        let joined := List.intercalate ("/".toList) resolved
        urlunparseM u.scheme netloc
          (if joined = [] then "/".toList else joined) u.params u.query u.fragment

/-! ### Model of `src/python/stashy/frontier.py` -/

/-- The geospatial keyword dictionary `GEO_TERMS` (a Python `set`; the
order below is the literal order in the source, and only membership and
cardinality matter). -/
def GEO_TERMS : List Str :=
  ["map".toList, "mapping".toList, "geospatial".toList, "geography".toList,
   "terrain".toList, "satellite".toList, "imagery".toList, "street".toList,
   "city".toList, "urban".toList, "vps".toList, "localization".toList,
   "positioning".toList, "ar".toList, "xr".toList, "robot".toList,
   "robotics".toList, "autonomous".toList, "drone".toList, "navigation".toList,
   "wayfinding".toList, "3d".toList, "reconstruction".toList, "sfm".toList,
   "gaussian".toList, "splatting".toList, "mesh".toList, "pointcloud".toList,
   "coordinate".toList, "gis".toList, "lidar".toList]

/-- The noise keyword dictionary `NOISE_TERMS`. -/
def NOISE_TERMS : List Str :=
  ["login".toList, "signup".toList, "privacy".toList, "terms".toList,
   "careers".toList, "contact".toList, "cookie".toList, "advertise".toList,
   "sponsor".toList]

/-- The helper `_clamp(value)` with its default bounds `0.0`, `1.0`
(every call site in the source uses the defaults). -/
def clamp01 (value : ℚ) : ℚ := max 0 (min 1 value)

/-- The frozen dataclass `FrontierCandidate`. -/
structure FrontierCandidate where
  url : Str
  geo_score : ℚ
  priority : ℤ
  reason : Str
deriving Repr, DecidableEq

/-- The frozen dataclass `GeoSignals` (its four sub-signal fields). -/
structure GeoSignals where
  geo_term_density : ℚ
  freshness_signal : ℚ
  structured_data_signal : ℚ
  link_quality_signal : ℚ
deriving Repr, DecidableEq

/-- The property `GeoSignals.aggregate_score`. -/
def GeoSignals.aggregate_score (s : GeoSignals) : ℚ :=
  clamp01 (s.geo_term_density * (42/100) + s.freshness_signal * (18/100)
    + s.structured_data_signal * (22/100) + s.link_quality_signal * (18/100))

/-- The function `canonicalize_url` of `frontier.py`. -/
def canonicalize_url (url : Str) : Str :=
  let parsed := urlparseM [] (pyStrip url)
  if parsed.scheme = "http".toList ∨ parsed.scheme = "https".toList then
    urlunparseM parsed.scheme (pyLower parsed.netloc)
      (if parsed.path = [] then "/".toList else parsed.path) [] parsed.query []
  else []

/-- The helper `_keyword_hits(text, words)`: the number of dictionary
words occurring in the lowercased text, divided by
`max(1, len(words) * 0.35)`. -/
def keyword_hits (text : Str) (words : List Str) : ℚ :=
  let lowered := pyLower text
  if lowered = [] then 0
  else ((words.countP (fun w => containsStr lowered w)) : ℚ)
    / max 1 ((words.length : ℚ) * (35/100))

/-- A link entry `{"href": ..., "text": ...}` of an extraction payload. -/
structure Link where
  href : Str
  text : Str
deriving Repr, DecidableEq

/-- The extraction payload fields read by `frontier.py`.  A missing or
falsy field of the Python dict is modelled by the empty string or list
(the source coerces those cases with `str(payload.get(...) or "")` and
`payload.get("links") or []`). -/
structure Payload where
  title : Str
  description : Str
  main_content : Str
  article_date : Str
  links : List Link
deriving Repr, DecidableEq

/-- The word-character class `\w` of the Python `re` module, ASCII range. -/
def isWordChar (c : Char) : Bool := isAsciiAlpha c || c.isDigit || c = '_'

/-- Four characters matching the regex alternative `202[4-9]|203\d`. -/
def isYearToken (m : Str) : Bool :=
  match m with
  | [a, b, c, d] =>
    a = '2' && b = '0' &&
      ((c = '2' && ('4' ≤ d && d ≤ '9')) || (c = '3' && d.isDigit))
  | _ => false

/-- Model of `re.search(r"\b(202[4-9]|203\d)\b", s)`: some position of
`s` carries a recent-year token with word boundaries on both sides. -/
def hasRecentYear (s : Str) : Bool :=
  (List.range (s.length + 1)).any (fun i =>
    isYearToken ((s.drop i).take 4) &&
      (match (s.take i).getLast? with
       | none => true
       | some c => !isWordChar c) &&
      (match ((s.drop i).drop 4).head? with
       | none => true
       | some c => !isWordChar c))

/-- The function `compute_geo_signals(url, payload)` of `frontier.py`. -/
def compute_geo_signals (url : Str) (payload : Payload) : GeoSignals :=
  let main_content := payload.main_content
  let blob : Str :=
    url ++ '\n' :: payload.title ++ '\n' :: payload.description
      ++ '\n' :: main_content.take 5000
  let geo_density := clamp01 (keyword_hits blob GEO_TERMS * (34/10))
  let freshness0 : ℚ := if payload.article_date ≠ [] then 65/100 else 0
  let freshness : ℚ :=
    if hasRecentYear blob then max freshness0 (8/10) else freshness0
  let structured0 : ℚ :=
    if containsStr (pyLower main_content) ("application/ld+json".toList)
    then 7/10 else 0
  let structured : ℚ :=
    if ["schema.org", "geo", "latitude", "longitude"].any
        (fun k => containsStr (pyLower main_content) k.toList)
    then max structured0 (6/10) else structured0
  let strong := payload.links.countP (fun link =>
    GEO_TERMS.any (fun term =>
      containsStr (pyLower (link.href ++ ' ' :: link.text)) term))
  let quality := clamp01 ((strong : ℚ)
    / max 1 ((min payload.links.length 15 : ℕ) : ℚ))
  ⟨geo_density, freshness, structured, quality⟩

/-! #### The anchor-harvesting regex of `extract_links`

`re.finditer(r'<a\s+[^>]*href=["\']([^"\']+)["\'][^>]*>(.*?)</a>', html,
re.IGNORECASE | re.DOTALL)` is modelled by an explicit backtracking
matcher.  Notes on the search order of the Python engine, which the
model reproduces: for a fixed start the greedy `[^>]*` before `href=`
prefers the rightmost `href=` occurrence whose run contains no `>`; the
greedy `([^"\']+)` and `[^>]*` stop at the first quote and first `>`
respectively (shorter attempts cannot succeed, so backtracking inside
them is vacuous); the lazy `(.*?)` stops at the first case-insensitive
`</a>`.  A shorter match of the leading `\s+` never enables a parse the
longest one misses, because `\s ⊆ [^>]`. -/

/-- Case-insensitive test for the literal `href=` at the head. -/
def isHrefAt (s : Str) : Bool := pyLower (s.take 5) = "href=".toList

/-- Case-insensitive search for the first `</a>`; returns the text
before it and the remainder after it. -/
def findCloseA : Str → Option (Str × Str)
  | [] => none
  | c :: rest =>
    if pyLower ((c :: rest).take 4) = "</a>".toList then
      some ([], (c :: rest).drop 4)
    else
      match findCloseA rest with
      | some (t, a) => some (c :: t, a)
      | none => none

/-- Candidate offsets of `href=` reachable through `[^>]*`, rightmost
first (greedy order). -/
def hrefCandidates (u : Str) : List ℕ :=
  ((List.range (u.length + 1)).filter (fun j =>
    (u.take j).all (fun c => c ≠ '>') && isHrefAt (u.drop j))).reverse

/-- Attempt to finish a match at `href=` offset `j` of `u`: consume the
quote, the nonempty quoted group, the run to `>`, and the lazy anchor
text up to `</a>`.  Returns `(href, anchor html, remainder)`. -/
def finishAnchor (u : Str) (j : ℕ) : Option (Str × Str × Str) :=
  match u.drop (j + 5) with
  | [] => none
  | q :: v2 =>
    if q = '"' ∨ q = '\'' then
      let grp1 := v2.takeWhile (fun c => !(c = '"' || c = '\''))
      if grp1 = [] then none
      else
        match v2.drop grp1.length with
        | [] => none
        | _ :: v4 =>
          match v4.drop ((v4.takeWhile (fun c => c ≠ '>')).length) with
          | [] => none
          | _ :: v6 =>
            match findCloseA v6 with
            | some (txt, after) => some (grp1, txt, after)
            | none => none
    else none

/-- Attempt an anchor match starting exactly at the head of `s`:
`<a`, one whitespace, then the candidate `href=` offsets in greedy
order. -/
def matchAnchorFrom (s : Str) : Option (Str × Str × Str) :=
  match s with
  | c0 :: c1 :: w :: rest =>
    if c0 = '<' ∧ (c1 = 'a' ∨ c1 = 'A') ∧ isPySpace w then
      (hrefCandidates rest).findSome? (fun j => finishAnchor rest j)
    else none
  | _ => none

/-- The scan of `re.finditer`: leftmost matches, continuing after each
match.  The fuel argument is the length of the remaining input. -/
def findAnchors : Str → ℕ → List (Str × Str)
  | _, 0 => []
  | [], _ + 1 => []
  | c :: rest, fuel + 1 =>
    match matchAnchorFrom (c :: rest) with
    | some (h, t, after) => (h, t) :: findAnchors after fuel
    | none => findAnchors rest fuel

/-- Model of `re.sub(r"<[^>]+>", " ", s)`: replace each tag by a single
space.  Fuel as above. -/
def stripTags : Str → ℕ → Str
  | s, 0 => s
  | [], _ + 1 => []
  | '<' :: rest, fuel + 1 =>
    let run := rest.takeWhile (fun c => c ≠ '>')
    if run = [] then '<' :: stripTags rest fuel
    else
      match rest.drop run.length with
      | '>' :: after => ' ' :: stripTags after fuel
      | _ => '<' :: stripTags rest fuel
  | c :: rest, fuel + 1 => c :: stripTags rest fuel

/-- Python `s.split()` with no argument: split on whitespace runs,
discarding empty pieces. -/
def pySplitWS : Str → ℕ → List Str
  | _, 0 => []
  | s, fuel + 1 =>
    match s.dropWhile isPySpace with
    | [] => []
    | c :: rest =>
      ((c :: rest).takeWhile (fun d => !isPySpace d))
        :: pySplitWS ((c :: rest).dropWhile (fun d => !isPySpace d)) fuel

/-- Python `" ".join(s.split())`: collapse whitespace runs to single
spaces and trim. -/
def normalizeWS (s : Str) : Str :=
  List.intercalate (" ".toList) (pySplitWS s s.length)

/-- The accumulation loop of `extract_links`: canonicalize each
harvested href against the base URL, skip empties and repeats, stop
once `max_links` links were collected. -/
def extractGo (base : Str) (maxLinks : ℤ) :
    List (Str × Str) → List Str → List Link → List Link
  | [], _, out => out
  | (hrefRaw, anchorHtml) :: rest, seen, out =>
    let text := (normalizeWS (stripTags anchorHtml anchorHtml.length)).take 220
    let absUrl := canonicalize_url (urljoinM base (pyStrip hrefRaw))
    if absUrl = [] ∨ seen.contains absUrl then
      extractGo base maxLinks rest seen out
    else
      let out2 := out ++ [⟨absUrl, text⟩]
      if maxLinks ≤ (out2.length : ℤ) then out2
      else extractGo base maxLinks rest (absUrl :: seen) out2

/-- The function `extract_links(html, base_url, max_links)` of
`frontier.py`. -/
def extract_links (html base_url : Str) (max_links : ℤ) : List Link :=
  if html = [] then []
  else extractGo base_url max_links (findAnchors html html.length) [] []

/-- The last two dot-separated labels of a host
(`host.split(".")[-2:]`). -/
def lastTwoLabels (h : Str) : List Str :=
  let parts := splitOnChar '.' h
  parts.drop (parts.length - 2)

/-- The helper `_host_affinity(parent_url, candidate_url)`. -/
def host_affinity (parent_url candidate_url : Str) : ℚ :=
  let parent_host := pyLower (urlparseM [] parent_url).netloc
  let cand_host := pyLower (urlparseM [] candidate_url).netloc
  if parent_host = [] ∨ cand_host = [] then 0
  else if parent_host = cand_host then 1
  else if lastTwoLabels parent_host = lastTwoLabels cand_host then 78/100
  else 45/100

/-- The function `score_frontier_candidate(parent_url, href, text)`,
returning the clamped score and the reason tag. -/
def score_frontier_candidate (parent_url href text : Str) : ℚ × Str :=
  let blob := pyLower (href ++ ' ' :: text)
  let geo := clamp01 (keyword_hits blob GEO_TERMS * (37/10))
  let noise := clamp01 (keyword_hits blob NOISE_TERMS * (26/10))
  let slash_count := (urlparseM [] href).path.count '/'
  let depth_penalty : ℚ :=
    if 5 < slash_count then min (28/100) (((slash_count - 5 : ℕ) : ℚ) * (5/100))
    else 0
  let host := host_affinity parent_url href
  let score := clamp01 (geo * (62/100) + host * (28/100)
    + (1 - noise) * (10/100) - depth_penalty)
  let reason : Str :=
    if 7/10 < geo then "geo-dense".toList
    else if 9/10 < host then "host-affinity".toList
    else if 3/10 < noise then "likely-noise".toList
    else "explore".toList
  (score, reason)

/-- The first harvesting loop of `frontier_candidates`: canonicalize the
payload links, dropping those that canonicalize to the empty string and
trimming anchor text to 220 characters. -/
def payloadHarvest (links : List Link) : List Link :=
  links.filterMap (fun link =>
    let href := canonicalize_url link.href
    if href = [] then none else some ⟨href, link.text.take 220⟩)

/-- The deduplication dict of `frontier_candidates`: first-seen text per
canonical href, in first-seen order (a Python `dict` preserves insertion
order). -/
def dedupGo : List Link → List Str → List (Str × Str)
  | [], _ => []
  | link :: rest, seen =>
    let href := canonicalize_url link.href
    if href = [] then dedupGo rest seen
    else if href ∈ seen then dedupGo rest seen
    else (href, link.text) :: dedupGo rest (href :: seen)

/-- The sort key comparison of `frontier_candidates`:
`sort(key=lambda item: (item.geo_score, item.priority), reverse=True)`,
a stable descending sort on the lexicographic pair. -/
def candLe (a b : FrontierCandidate) : Bool :=
  decide (b.geo_score < a.geo_score
    ∨ (b.geo_score = a.geo_score ∧ b.priority ≤ a.priority))

/-- The two-stage link harvest of `frontier_candidates`: the payload
links, extended with links scanned from the raw markup when fewer than
`max_links // 2` payload links survived canonicalization. -/
def harvestLinks (parent_url : Str) (payload : Payload) (html : Str)
    (max_links : ℤ) : List Link :=
  let links0 := payloadHarvest payload.links
  if (links0.length : ℤ) < Int.fdiv max_links 2 then
    links0 ++ extract_links html parent_url max_links
  else links0

/-- The candidate constructor of `frontier_candidates`: score the pair,
blend with the page geo-score
(`blended = clamp(score * 0.72 + page_geo_score * 0.28)`), and assign
`priority = ceil(blended * 100) + max(0, 20 - current_depth * 6)`. -/
def mkCandidate (parent_url : Str) (current_depth : ℤ) (page_geo_score : ℚ)
    (ht : Str × Str) : FrontierCandidate :=
  let sr := score_frontier_candidate parent_url ht.1 ht.2
  let blended := clamp01 (sr.1 * (72/100) + page_geo_score * (28/100))
  { url := ht.1
    geo_score := blended
    priority := ⌈blended * 100⌉ + max 0 (20 - current_depth * 6)
    reason := sr.2 }

/-- The function `frontier_candidates(...)` of `frontier.py`. -/
def frontier_candidates (parent_url : Str) (payload : Payload) (html : Str)
    (current_depth max_depth max_links : ℤ) (page_geo_score : ℚ) :
    List FrontierCandidate :=
  if max_depth ≤ current_depth then []
  else
    pyTake max_links
      (((dedupGo (harvestLinks parent_url payload html max_links) []).map
          (mkCandidate parent_url current_depth page_geo_score)).mergeSort candLe)

/-! ### Model of `src/python/stashy/db.py` row transitions

The queue table `url_queue` is modelled per row.  `mark_url_failed` and
`mark_url_done` are single-row SQL `UPDATE`s; their `WHERE id = $1`
selection is modelled by applying the transition to the selected row. -/

/-- The `status` column of `url_queue`. -/
inductive UrlStatus where
  | pending
  | in_progress
  | done
  | failed
deriving Repr, DecidableEq

/-- A row of `url_queue`, with the columns the modelled transitions
read or write.  Timestamps are abstract instants (`ℕ`). -/
structure UrlQueueRow where
  status : UrlStatus
  retries : ℕ
  max_retries : ℕ
  claimed_at : Option ℕ
  claimed_by : Option Str
  error : Option Str
  processed_at : Option ℕ
  updated_at : Option ℕ
deriving Repr, DecidableEq

/-- The `UPDATE` of `mark_url_failed(url_id, error)` in `db.py`:
status becomes `failed` if `retries + 1 >= max_retries` and `pending`
otherwise, `retries` is incremented, the claim fields are cleared, the
error is stored truncated to 4096 characters (`error[:4096]`), and
`updated_at` is set to `now()`. -/
def mark_url_failed (now : ℕ) (row : UrlQueueRow) (error : Str) : UrlQueueRow :=
  { row with
    status := if row.max_retries ≤ row.retries + 1 then .failed else .pending
    retries := row.retries + 1
    claimed_at := none
    claimed_by := none
    error := some (error.take 4096)
    updated_at := some now }

/-- The `UPDATE` of `mark_url_done(url_id)` in `db.py`. -/
def mark_url_done (now : ℕ) (row : UrlQueueRow) : UrlQueueRow :=
  { row with
    status := .done
    claimed_at := none
    claimed_by := none
    processed_at := some now }

/-- A freshly enqueued row: `status` defaults to `pending` and
`retries` to `0` (schema defaults assumed by `db.py`). -/
def freshRow (max_retries : ℕ) : UrlQueueRow :=
  ⟨.pending, 0, max_retries, none, none, none, none, none⟩

/-- Repeated application of `mark_url_failed` with the given error
texts, oldest first. -/
def applyFailures (now : ℕ) (errs : List Str) (row : UrlQueueRow) : UrlQueueRow :=
  errs.foldl (fun r e => mark_url_failed now r e) row

/-! ### Model of `process_one` in `src/python/stashy/worker.py`

`process_one` is a sequence of effectful stages, each wrapped in
`try/except`.  The outcome of every effectful stage is an oracle of the
model (`ProcessEnv`), and `process_one` is the pure function from those
outcomes to the list of queue events the pipeline emits, in order. -/

/-- Result of `get_page_html`: markup (possibly `None`), status code and
content type. -/
structure FetchOk where
  html : Option Str
  status_code : Option ℤ
  content_type : Option Str

/-- Outcomes of the effectful stages of `process_one` for one row.
`Except.error e` models the stage raising an exception rendered as `e`;
for the frontier stage the `Except.ok` value is the number of enqueued
candidates. -/
structure ProcessEnv where
  fetch : Except Str FetchOk
  insert_raw_page : Except Str ℤ
  analyze_dom : Except Str (Payload × ℚ)
  insert_extraction : Except Str Unit
  enqueue_frontier : Except Str ℕ

/-- Queue events `process_one` can emit for its row. -/
inductive WorkerEvent where
  | markFailed (error : Str)
  | markDone
  | frontierFailureLogged (error : Str)
deriving Repr, DecidableEq

/-- The `process_one` pipeline of `worker.py`, as the ordered list of
queue events it issues for the claimed row: each failing stage up to
the extraction insert issues `mark_url_failed` and returns; a frontier
failure is only logged; `mark_url_done` always runs after the frontier
stage. -/
def process_one (env : ProcessEnv) : List WorkerEvent :=
  match env.fetch with
  | .error e => [.markFailed e]
  | .ok f =>
    match f.html with
    | none => [.markFailed ("fetch failed or timeout".toList)]
    | some _ =>
      match env.insert_raw_page with
      | .error e => [.markFailed ("insert raw_page failed: ".toList ++ e)]
      | .ok _ =>
        match env.analyze_dom with
        | .error e => [.markFailed ("dom analysis failed: ".toList ++ e)]
        | .ok _ =>
          match env.insert_extraction with
          | .error e => [.markFailed ("insert extraction failed: ".toList ++ e)]
          | .ok _ =>
            (match env.enqueue_frontier with
             | .error e => [.frontierFailureLogged e]
             | .ok _ => []) ++ [.markDone]

/-- Effect of one worker event on the row (a logged frontier failure
touches nothing). -/
def applyEvent (now : ℕ) (row : UrlQueueRow) : WorkerEvent → UrlQueueRow
  | .markFailed e => mark_url_failed now row e
  | .markDone => mark_url_done now row
  | .frontierFailureLogged _ => row

/-- Effect of an event list on the row, oldest first. -/
def applyEvents (now : ℕ) (row : UrlQueueRow) (evs : List WorkerEvent) : UrlQueueRow :=
  evs.foldl (applyEvent now) row

/-! ### Spec-side reference formulas

These definitions follow the wording of the specification (not the
source); the refinement claims compare them with the source-derived
definitions above. -/

/-- The text blob of `compute_geo_signals`: URL, title, description and
the first 5000 characters of the main content. -/
def geoBlob (url : Str) (payload : Payload) : Str :=
  url ++ '\n' :: payload.title ++ '\n' :: payload.description
    ++ '\n' :: payload.main_content.take 5000

/-- Following the spec's words for the `geo_term_density` claim: the
fraction of the fixed dictionary of geospatial terms occurring in the
concatenation of URL + title + description + first 5000 characters of
main content. -/
def geoTermDictFraction (url : Str) (payload : Payload) : ℚ :=
  ((GEO_TERMS.countP (fun w => containsStr (pyLower (geoBlob url payload)) w)) : ℚ)
    / (GEO_TERMS.length : ℚ)

/-- Whether a link counts as geospatial for the link-quality signal:
its href or anchor text contains some geo term. -/
def isStrongLink (link : Link) : Bool :=
  GEO_TERMS.any (fun term =>
    containsStr (pyLower (link.href ++ ' ' :: link.text)) term)

/-- Following the spec's words for the `link_quality_signal` claim: of
up to the first 15 links, the fraction whose href or anchor text
contains a geo term (taken as 0 when there are no links). -/
def linkQualityFirst15 (payload : Payload) : ℚ :=
  let first := payload.links.take 15
  if first = [] then 0
  else ((first.countP isStrongLink) : ℚ) / (first.length : ℚ)

/-- The link-quality fraction the source actually computes: geo-matching
links among all links over `max(1, min(len(links), 15))`, before the
clamp. -/
def linkQualityAllLinks (payload : Payload) : ℚ :=
  ((payload.links.countP isStrongLink) : ℚ)
    / max 1 ((min payload.links.length 15 : ℕ) : ℚ)

end Stashy

namespace Stashy

example : urlparseM [] ("https://Example.com/maps/path#frag".toList) =
    ⟨"https".toList, "Example.com".toList, "/maps/path".toList, [], [], "frag".toList⟩ := by decide
example : urlparseM [] ("http://a/x #f".toList) =
    ⟨"http".toList, "a".toList, "/x ".toList, [], [], "f".toList⟩ := by decide
example : urlparseM [] ("http://a/p? #f".toList) =
    ⟨"http".toList, "a".toList, "/p".toList, [], " ".toList, "f".toList⟩ := by decide
example : urlparseM [] ("http:////x".toList) =
    ⟨"http".toList, [], "//x".toList, [], [], []⟩ := by decide
example : urlparseM [] ("http://".toList) =
    ⟨"http".toList, [], [], [], [], []⟩ := by decide
example : urlparseM [] ("http:a:b".toList) =
    ⟨"http".toList, [], "a:b".toList, [], [], []⟩ := by decide
example : urlparseM [] ("/x".toList) =
    ⟨[], [], "/x".toList, [], [], []⟩ := by decide
example : urlparseM [] ("mailto:x@y".toList) =
    ⟨"mailto".toList, [], "x@y".toList, [], [], []⟩ := by decide
example : urlparseM [] ("http://a/p;x=1".toList) =
    ⟨"http".toList, "a".toList, "/p".toList, "x=1".toList, [], []⟩ := by decide
example : urlparseM [] ("http://a/p;x=1/q".toList) =
    ⟨"http".toList, "a".toList, "/p;x=1/q".toList, [], [], []⟩ := by decide
example : urlparseM [] ("HTTP://User@Ex.COM:80/A/b?q=1&r=2#z".toList) =
    ⟨"http".toList, "User@Ex.COM:80".toList, "/A/b".toList, [], "q=1&r=2".toList, "z".toList⟩ := by decide
example : urlparseM [] ("  \thttp://a/b\n ".toList) =
    ⟨"http".toList, "a".toList, "/b ".toList, [], [], []⟩ := by decide
example : urlparseM [] ("1http://a".toList) =
    ⟨[], [], "1http://a".toList, [], [], []⟩ := by decide
example : urlparseM [] ("://a".toList) =
    ⟨[], [], "://a".toList, [], [], []⟩ := by decide
example : urlparseM [] ("http//a".toList) =
    ⟨[], [], "http//a".toList, [], [], []⟩ := by decide
example : urlparseM [] ("a:b:c".toList) =
    ⟨"a".toList, [], "b:c".toList, [], [], []⟩ := by decide
example : urlparseM [] ("http://h?#".toList) =
    ⟨"http".toList, "h".toList, [], [], [], []⟩ := by decide
example : urlparseM [] ("http://h#?".toList) =
    ⟨"http".toList, "h".toList, [], [], [], "?".toList⟩ := by decide
example : urlparseM [] ("http://a/p;q;r/s;t=u".toList) =
    ⟨"http".toList, "a".toList, "/p;q;r/s".toList, "t=u".toList, [], []⟩ := by decide
example : urlparseM [] ("http://a/;x".toList) =
    ⟨"http".toList, "a".toList, "/".toList, "x".toList, [], []⟩ := by decide
example : urlparseM [] (";x/y".toList) =
    ⟨[], [], ";x/y".toList, [], [], []⟩ := by decide

end Stashy

namespace Stashy

example : canonicalize_url ("https://Example.com/maps/path#frag".toList) =
    "https://example.com/maps/path".toList := by decide
example : canonicalize_url ("mailto:x@y".toList) = [] := by decide
example : canonicalize_url ("ftp://a/b".toList) = [] := by decide
example : canonicalize_url ("/x".toList) = [] := by decide
example : canonicalize_url ("https://User@Example.com/p".toList) =
    "https://user@example.com/p".toList := by decide
example : canonicalize_url ("http://a/x #f".toList) = "http://a/x ".toList := by decide
example : canonicalize_url ("http://a/x ".toList) = "http://a/x".toList := by decide
example : canonicalize_url ("HTTP://A/B?q=1#z".toList) = "http://a/B?q=1".toList := by decide
example : canonicalize_url ("http://a".toList) = "http://a/".toList := by decide
example : canonicalize_url ("http://a/p;x=1".toList) = "http://a/p".toList := by decide
example : canonicalize_url ("  http://a/b  ".toList) = "http://a/b".toList := by decide

example : (compute_geo_signals ("zzz".toList)
    ⟨"map".toList, [], [], [], []⟩).geo_term_density = 68/217 := by decide

example : (compute_geo_signals []
    ⟨[], [], [], [], List.replicate 15 ⟨"q".toList, []⟩ ++ [⟨"map".toList, []⟩]⟩).link_quality_signal
    = 1/15 := by decide

example : score_frontier_candidate ("http://a/".toList) ("http://a/b".toList) []
    = (19/50, "host-affinity".toList) := by decide

end Stashy

namespace Stashy

example : frontier_candidates ("https://example.com/".toList)
    ⟨"VPS".toList, [], [], [], [⟨"https://example.com/maps/vps".toList, "VPS mapping".toList⟩]⟩
    [] 2 2 10 (7/10) = [] := by decide

example : frontier_candidates ("http://a/".toList)
    ⟨[], [], [], [], [⟨"http://a/b".toList, []⟩]⟩ [] 0 1 2 0
    = [⟨"http://a/b".toList, 171/625, 48, "host-affinity".toList⟩] := by decide

example : frontier_candidates ("http://a/".toList)
    ⟨[], [], [], [], [⟨"http://a/b".toList, []⟩]⟩ [] 0 1 2 (1/2)
    = [⟨"http://a/b".toList, 517/1250, 62, "host-affinity".toList⟩] := by decide

example : frontier_candidates ("http://a/".toList)
    ⟨[], [], [], [], [⟨"http://a/b".toList, []⟩]⟩ [] (-1) 0 2 10
    = [⟨"http://a/b".toList, 1, 126, "host-affinity".toList⟩] := by decide

end Stashy

namespace Stashy

/-! ### General lemmas about the embedded operations -/

theorem clamp01_nonneg (x : ℚ) : 0 ≤ clamp01 x := le_max_left 0 _

theorem clamp01_le_one (x : ℚ) : clamp01 x ≤ 1 :=
  max_le zero_le_one (min_le_left 1 x)

theorem clamp01_mono {x y : ℚ} (h : x ≤ y) : clamp01 x ≤ clamp01 y :=
  max_le_max le_rfl (min_le_min le_rfl h)

theorem pyTake_subset {α : Type} (k : ℤ) (l : List α) : pyTake k l ⊆ l := by
  unfold pyTake
  split
  · exact List.take_subset _ _
  · exact List.take_subset _ _

theorem aggregate_score_eq (s : GeoSignals) :
    s.aggregate_score = clamp01 (s.geo_term_density * (42/100)
      + s.freshness_signal * (18/100) + s.structured_data_signal * (22/100)
      + s.link_quality_signal * (18/100)) := rfl

theorem score_frontier_candidate_fst (parent_url href text : Str) :
    ∃ x, score_frontier_candidate parent_url href text = (clamp01 x, (score_frontier_candidate parent_url href text).2) :=
  ⟨_, rfl⟩

/-! ### Claim theorems -/

/-- C1: for every url and payload, `compute_geo_signals(url, payload).aggregate_score`
lies in `[0, 1]`, and for every parent_url, href and text, the score
component returned by `score_frontier_candidate(parent_url, href, text)`
lies in `[0, 1]`. -/
theorem claim1_score_ranges (url : Str) (payload : Payload)
    (parent_url href text : Str) :
    (0 ≤ (compute_geo_signals url payload).aggregate_score
      ∧ (compute_geo_signals url payload).aggregate_score ≤ 1)
    ∧ (0 ≤ (score_frontier_candidate parent_url href text).1
      ∧ (score_frontier_candidate parent_url href text).1 ≤ 1) := by
  refine ⟨⟨?_, ?_⟩, ?_, ?_⟩
  · rw [aggregate_score_eq]; exact clamp01_nonneg _
  · rw [aggregate_score_eq]; exact clamp01_le_one _
  · obtain ⟨x, hx⟩ := score_frontier_candidate_fst parent_url href text
    rw [hx]; exact clamp01_nonneg x
  · obtain ⟨x, hx⟩ := score_frontier_candidate_fst parent_url href text
    rw [hx]; exact clamp01_le_one x

/-- C2: whenever `current_depth >= max_depth`, `frontier_candidates`
returns the empty list, for every parent url, payload, html, max_links
and page geo-score. -/
theorem claim2_depth_gate (parent_url : Str) (payload : Payload) (html : Str)
    (current_depth max_depth max_links : ℤ) (page_geo_score : ℚ)
    (h : max_depth ≤ current_depth) :
    frontier_candidates parent_url payload html current_depth max_depth
      max_links page_geo_score = [] := by
  unfold frontier_candidates
  exact if_pos h

/-- Witness for C2, the depth-gate scenario of the repository's unit
test: depth 2 with `max_depth` 2 yields no candidates. -/
theorem claim2_depth_gate_witness :
    (2 : ℤ) ≤ 2 ∧ frontier_candidates ("https://example.com/".toList)
      ⟨"VPS".toList, [], [], [],
        [⟨"https://example.com/maps/vps".toList, "VPS mapping".toList⟩]⟩
      [] 2 2 10 (7/10) = [] :=
  ⟨by decide, claim2_depth_gate _ _ _ _ _ _ _ (by decide)⟩

end Stashy

namespace Stashy

theorem mark_url_failed_max_retries (now : ℕ) (row : UrlQueueRow) (e : Str) :
    (mark_url_failed now row e).max_retries = row.max_retries := rfl

theorem applyFailures_retries (now : ℕ) (errs : List Str) :
    ∀ row : UrlQueueRow,
      (applyFailures now errs row).retries = row.retries + errs.length := by
  induction errs with
  | nil => intro row; simp [applyFailures]
  | cons e rest ih =>
    intro row
    simp only [applyFailures, List.foldl_cons] at *
    rw [ih (mark_url_failed now row e)]
    simp [mark_url_failed]
    omega

theorem applyFailures_status (now : ℕ) (errs : List Str) (hne : errs ≠ []) :
    ∀ row : UrlQueueRow,
      (applyFailures now errs row).status =
        (if row.max_retries ≤ row.retries + errs.length
         then UrlStatus.failed else UrlStatus.pending) := by
  induction errs with
  | nil => exact absurd rfl hne
  | cons e rest ih =>
    intro row
    by_cases hr : rest = []
    · subst hr
      simp [applyFailures, mark_url_failed]
    · simp only [applyFailures, List.foldl_cons] at *
      rw [ih hr (mark_url_failed now row e)]
      simp only [mark_url_failed_max_retries, mark_url_failed]
      have : row.retries + 1 + rest.length = row.retries + (rest.length + 1) := by omega
      simp [this]

/-- C3: `mark_url_failed` increments `retries` by one, moves the row to
`failed` exactly when `retries + 1 >= max_retries` and back to `pending`
otherwise, clears both claim fields, and stores the error truncated to
at most 4096 characters; consequently, starting from a fresh row with
`max_retries >= 1`, a sequence of `mark_url_failed` applications leaves
the row `failed` if and only if it contains at least `max_retries`
applications. -/
theorem claim3_mark_failed_retry_bound (now : ℕ) (row : UrlQueueRow)
    (err : Str) (errs : List Str) (mr : ℕ) (hmr : 1 ≤ mr) :
    (mark_url_failed now row err).retries = row.retries + 1
    ∧ (mark_url_failed now row err).status =
        (if row.max_retries ≤ row.retries + 1
         then UrlStatus.failed else UrlStatus.pending)
    ∧ (mark_url_failed now row err).claimed_at = none
    ∧ (mark_url_failed now row err).claimed_by = none
    ∧ (mark_url_failed now row err).error = some (err.take 4096)
    ∧ (err.take 4096).length ≤ 4096
    ∧ ((applyFailures now errs (freshRow mr)).status = UrlStatus.failed
        ↔ mr ≤ errs.length) := by
  refine ⟨rfl, rfl, rfl, rfl, rfl, ?_, ?_⟩
  · exact le_trans (List.length_take_le 4096 err) le_rfl
  · by_cases hne : errs = []
    · subst hne
      simp only [applyFailures, List.foldl_nil, freshRow, List.length_nil]
      constructor
      · intro h; exact absurd h (by decide)
      · intro h; omega
    · rw [applyFailures_status now errs hne (freshRow mr)]
      simp only [freshRow, List.length_nil]
      constructor
      · intro h
        by_contra hlt
        rw [if_neg (by simpa [freshRow] using hlt)] at h
        exact absurd h (by decide)
      · intro h
        rw [if_pos (by simpa [freshRow] using h)]

/-- Witness for C3 at a fresh row with the schema default
`max_retries = 3`: three failures produce exactly the `failed` state,
and all the per-call effects hold at a concrete row. -/
theorem claim3_mark_failed_retry_bound_witness :
    (1 : ℕ) ≤ 3 ∧
    ((mark_url_failed 7 (freshRow 3) ("boom".toList)).retries = (freshRow 3).retries + 1
    ∧ (mark_url_failed 7 (freshRow 3) ("boom".toList)).status =
        (if (freshRow 3).max_retries ≤ (freshRow 3).retries + 1
         then UrlStatus.failed else UrlStatus.pending)
    ∧ (mark_url_failed 7 (freshRow 3) ("boom".toList)).claimed_at = none
    ∧ (mark_url_failed 7 (freshRow 3) ("boom".toList)).claimed_by = none
    ∧ (mark_url_failed 7 (freshRow 3) ("boom".toList)).error = some (("boom".toList).take 4096)
    ∧ (("boom".toList).take 4096).length ≤ 4096
    ∧ ((applyFailures 7 ["a".toList, "b".toList, "c".toList] (freshRow 3)).status = UrlStatus.failed
        ↔ 3 ≤ (["a".toList, "b".toList, "c".toList] : List Str).length)) :=
  ⟨by decide,
   claim3_mark_failed_retry_bound 7 (freshRow 3) ("boom".toList)
     ["a".toList, "b".toList, "c".toList] 3 (by decide)⟩

/-- C4: when the fetch returned markup, the raw-page insert, the
extraction and the extraction insert all succeeded, `process_one` marks
the row done regardless of the frontier stage's outcome; a frontier
exception is only logged, no `mark_url_failed` is issued, and the row
still transitions to `done`. -/
theorem claim4_frontier_failure_swallowed (env : ProcessEnv) (f : FetchOk)
    (markup : Str) (pid : ℤ) (pc : Payload × ℚ)
    (h1 : env.fetch = .ok f) (h2 : f.html = some markup)
    (h3 : env.insert_raw_page = .ok pid) (h4 : env.analyze_dom = .ok pc)
    (h5 : env.insert_extraction = .ok ()) :
    (WorkerEvent.markDone ∈ process_one env)
    ∧ (∀ e, WorkerEvent.markFailed e ∉ process_one env)
    ∧ (∀ e, env.enqueue_frontier = .error e →
        process_one env = [.frontierFailureLogged e, .markDone])
    ∧ (∀ now row, (applyEvents now row (process_one env)).status = .done) := by
  rcases hf : env.enqueue_frontier with e | n
  · have hpo : process_one env = [.frontierFailureLogged e, .markDone] := by
      simp [process_one, h1, h2, h3, h4, h5, hf]
    refine ⟨by rw [hpo]; simp, ?_, ?_, ?_⟩
    · intro x
      rw [hpo]; simp
    · intro x hx
      injection hx with hex
      subst hex
      exact hpo
    · intro now row
      rw [hpo]
      simp [applyEvents, applyEvent, mark_url_done]
  · have hpo : process_one env = [.markDone] := by
      simp [process_one, h1, h2, h3, h4, h5, hf]
    refine ⟨by rw [hpo]; simp, ?_, ?_, ?_⟩
    · intro x
      rw [hpo]; simp
    · intro x hx
      exact absurd hx (by simp)
    · intro now row
      rw [hpo]
      simp [applyEvents, applyEvent, mark_url_done]

/-- Witness for C4 at a concrete environment whose frontier stage
raises: the trace is the logged frontier failure followed by
`mark_done`, and the row ends `done`. -/
theorem claim4_frontier_failure_swallowed_witness :
    WorkerEvent.markDone ∈ process_one
      ⟨.ok ⟨some ("<p>".toList), some 200, none⟩, .ok 1,
        .ok (⟨[], [], [], [], []⟩, 1/2), .ok (), .error ("db down".toList)⟩
    ∧ process_one
      ⟨.ok ⟨some ("<p>".toList), some 200, none⟩, .ok 1,
        .ok (⟨[], [], [], [], []⟩, 1/2), .ok (), .error ("db down".toList)⟩
      = [.frontierFailureLogged ("db down".toList), .markDone]
    ∧ (applyEvents 9 (freshRow 3) (process_one
      ⟨.ok ⟨some ("<p>".toList), some 200, none⟩, .ok 1,
        .ok (⟨[], [], [], [], []⟩, 1/2), .ok (), .error ("db down".toList)⟩)).status = .done := by
  refine ⟨?_, ?_, ?_⟩
  · exact (claim4_frontier_failure_swallowed _ _ ("<p>".toList) 1
      (⟨[], [], [], [], []⟩, 1/2) rfl rfl rfl rfl rfl).1
  · exact (claim4_frontier_failure_swallowed _ _ ("<p>".toList) 1
      (⟨[], [], [], [], []⟩, 1/2) rfl rfl rfl rfl rfl).2.2.1 _ rfl
  · exact (claim4_frontier_failure_swallowed _ _ ("<p>".toList) 1
      (⟨[], [], [], [], []⟩, 1/2) rfl rfl rfl rfl rfl).2.2.2 9 (freshRow 3)

end Stashy

namespace Stashy

/-- C5 counterexample: with URL `"zzz"` and title `"map"` exactly one of
the 31 dictionary terms occurs, the source computes
`clamp(1 / (31 * 0.35) * 3.4) = 68/217`, while the claimed
`clamp(fraction-of-dictionary * 3.4)` is `17/155`. -/
theorem claim5_counterexample :
    (compute_geo_signals ("zzz".toList)
        ⟨"map".toList, [], [], [], []⟩).geo_term_density
      ≠ clamp01 (geoTermDictFraction ("zzz".toList)
        ⟨"map".toList, [], [], [], []⟩ * (34/10)) := by decide

/-- C5 as amended: `geo_term_density` equals the fraction of the fixed
31-term dictionary occurring in URL + title + description + first 5000
characters of main content, multiplied by `3.4 / 0.35 = 68/7` (not by
3.4: `_keyword_hits` divides the hit count by `max(1, len(words)*0.35)`,
not by `len(words)`), and clamped to `[0, 1]`. -/
theorem claim5_amended (url : Str) (payload : Payload) :
    (compute_geo_signals url payload).geo_term_density
      = clamp01 (geoTermDictFraction url payload * (68/7)) := by
  have hblob : pyLower (geoBlob url payload) ≠ [] := by
    simp [pyLower, geoBlob]
  show clamp01 (keyword_hits (geoBlob url payload) GEO_TERMS * (34/10)) = _
  unfold keyword_hits geoTermDictFraction
  rw [if_neg hblob]
  congr 1
  have h31 : ((GEO_TERMS.length : ℕ) : ℚ) = 31 := by norm_num [GEO_TERMS]
  rw [h31]
  have hmax : max (1 : ℚ) ((31 : ℚ) * (35/100)) = 217/20 := by norm_num
  rw [hmax]
  ring

/-- C6 counterexample: with 16 links of which only the sixteenth is
geospatial, the source counts the match of the sixteenth link in the
numerator (value `1/15`), while the claimed first-15-only fraction is
`0`. -/
theorem claim6_counterexample :
    (compute_geo_signals []
        ⟨[], [], [], [],
          List.replicate 15 ⟨"q".toList, []⟩ ++ [⟨"map".toList, []⟩]⟩).link_quality_signal
      ≠ linkQualityFirst15
        ⟨[], [], [], [],
          List.replicate 15 ⟨"q".toList, []⟩ ++ [⟨"map".toList, []⟩]⟩ := by decide

/-- C6 as amended: `link_quality_signal` counts geo-matching links over
the whole link list in the numerator — links beyond the first 15 do
contribute — while only the denominator is capped at 15
(`max(1, min(len(links), 15))`); the quotient is clamped to `[0, 1]`. -/
theorem claim6_amended (url : Str) (payload : Payload) :
    (compute_geo_signals url payload).link_quality_signal
      = clamp01 (linkQualityAllLinks payload) := rfl

end Stashy

namespace Stashy

theorem dedupGo_head_not_seen :
    ∀ {links : List Link} {seen : List Str} {k t : Str},
      (k, t) ∈ dedupGo links seen → k ∉ seen := by
  intro links
  induction links with
  | nil => intro seen k t hmem; simp [dedupGo] at hmem
  | cons l rest ih =>
    intro seen k t hmem
    simp only [dedupGo] at hmem
    split at hmem
    · exact ih hmem
    · split at hmem
      · exact ih hmem
      · rename_i hne hnotseen
        rcases List.mem_cons.mp hmem with heq | htail
        · obtain ⟨hk, -⟩ := Prod.mk.injEq .. ▸ heq
          cases heq
          exact hnotseen
        · exact fun hk => (ih htail) (List.mem_cons_of_mem _ hk)

theorem dedupGo_text_unique :
    ∀ {links : List Link} {seen : List Str} {k t1 t2 : Str},
      (k, t1) ∈ dedupGo links seen → (k, t2) ∈ dedupGo links seen → t1 = t2 := by
  intro links
  induction links with
  | nil => intro seen k t1 t2 h1 _; simp [dedupGo] at h1
  | cons l rest ih =>
    intro seen k t1 t2 h1 h2
    simp only [dedupGo] at h1 h2
    by_cases hemp : canonicalize_url l.href = []
    · rw [if_pos hemp] at h1 h2
      exact ih h1 h2
    · rw [if_neg hemp] at h1 h2
      by_cases hseen : canonicalize_url l.href ∈ seen
      · rw [if_pos hseen] at h1 h2
        exact ih h1 h2
      · rw [if_neg hseen] at h1 h2
        rcases List.mem_cons.mp h1 with heq1 | htail1 <;>
          rcases List.mem_cons.mp h2 with heq2 | htail2
        · cases heq1; cases heq2; rfl
        · cases heq1
          exact absurd (List.mem_cons_self _ _) (dedupGo_head_not_seen htail2)
        · cases heq2
          exact absurd (List.mem_cons_self _ _) (dedupGo_head_not_seen htail1)
        · exact ih htail1 htail2

theorem mem_frontier_candidates {parent_url : Str} {payload : Payload}
    {html : Str} {current_depth max_depth max_links : ℤ} {g : ℚ}
    {c : FrontierCandidate}
    (hc : c ∈ frontier_candidates parent_url payload html current_depth
      max_depth max_links g) :
    ∃ ht ∈ dedupGo (harvestLinks parent_url payload html max_links) [],
      c = mkCandidate parent_url current_depth g ht := by
  unfold frontier_candidates at hc
  split at hc
  · exact absurd hc (List.not_mem_nil c)
  · have h1 := pyTake_subset _ _ hc
    rw [List.mem_mergeSort] at h1
    obtain ⟨ht, hht, hc2⟩ := List.mem_map.mp h1
    exact ⟨ht, hht, hc2.symm⟩

theorem mkCandidate_url (p : Str) (d : ℤ) (g : ℚ) (ht : Str × Str) :
    (mkCandidate p d g ht).url = ht.1 := rfl

theorem mkCandidate_geo_score (p : Str) (d : ℤ) (g : ℚ) (ht : Str × Str) :
    (mkCandidate p d g ht).geo_score =
      clamp01 ((score_frontier_candidate p ht.1 ht.2).1 * (72/100)
        + g * (28/100)) := rfl

theorem mkCandidate_priority (p : Str) (d : ℤ) (g : ℚ) (ht : Str × Str) :
    (mkCandidate p d g ht).priority =
      ⌈(mkCandidate p d g ht).geo_score * 100⌉ + max 0 (20 - d * 6) := rfl

/-- C9: with all other inputs fixed, raising `page_geo_score` from `g1`
to `g2` never lowers the blended geo-score of a candidate URL: if the
same URL is produced by `frontier_candidates` under both scores, its
`geo_score` under `g2` is at least its `geo_score` under `g1`. -/
theorem claim9_page_score_monotone (parent_url : Str) (payload : Payload)
    (html : Str) (current_depth max_depth max_links : ℤ) (g1 g2 : ℚ)
    (hg : g1 ≤ g2) (c1 c2 : FrontierCandidate)
    (h1 : c1 ∈ frontier_candidates parent_url payload html current_depth
      max_depth max_links g1)
    (h2 : c2 ∈ frontier_candidates parent_url payload html current_depth
      max_depth max_links g2)
    (hurl : c1.url = c2.url) :
    c1.geo_score ≤ c2.geo_score := by
  obtain ⟨ht1, hht1, rfl⟩ := mem_frontier_candidates h1
  obtain ⟨ht2, hht2, rfl⟩ := mem_frontier_candidates h2
  obtain ⟨k1, t1⟩ := ht1
  obtain ⟨k2, t2⟩ := ht2
  have hkey : k1 = k2 := by
    simpa only [mkCandidate_url] using hurl
  subst hkey
  have htxt : t1 = t2 := dedupGo_text_unique hht1 hht2
  subst htxt
  rw [mkCandidate_geo_score, mkCandidate_geo_score]
  exact clamp01_mono (add_le_add_left
    (mul_le_mul_of_nonneg_right hg (by norm_num)) _)

/-- Witness for C9: one candidate link of `http://a/` scored under page
geo-scores `0` and `1/2`; the blended score rises from `171/625` to
`517/1250`. -/
theorem claim9_page_score_monotone_witness :
    (0 : ℚ) ≤ 1/2
    ∧ (⟨"http://a/b".toList, 171/625, 48, "host-affinity".toList⟩ : FrontierCandidate)
        ∈ frontier_candidates ("http://a/".toList)
          ⟨[], [], [], [], [⟨"http://a/b".toList, []⟩]⟩ [] 0 1 2 0
    ∧ (⟨"http://a/b".toList, 517/1250, 62, "host-affinity".toList⟩ : FrontierCandidate)
        ∈ frontier_candidates ("http://a/".toList)
          ⟨[], [], [], [], [⟨"http://a/b".toList, []⟩]⟩ [] 0 1 2 (1/2)
    ∧ (⟨"http://a/b".toList, 171/625, 48, "host-affinity".toList⟩ : FrontierCandidate).geo_score
        ≤ (⟨"http://a/b".toList, 517/1250, 62, "host-affinity".toList⟩ : FrontierCandidate).geo_score := by
  refine ⟨by decide, by decide, by decide, ?_⟩
  exact claim9_page_score_monotone ("http://a/".toList)
    ⟨[], [], [], [], [⟨"http://a/b".toList, []⟩]⟩ [] 0 1 2 0 (1/2)
    (by decide) _ _ (by decide) (by decide) (by decide)

/-- C10 counterexample: `frontier_candidates` accepts a negative
`current_depth`; at depth `-1` with `page_geo_score = 10` the single
returned candidate has priority `126 > 120`, so the claimed bound fails
as stated over all inputs. -/
theorem claim10_counterexample :
    ¬ (∀ c ∈ frontier_candidates ("http://a/".toList)
        ⟨[], [], [], [], [⟨"http://a/b".toList, []⟩]⟩ [] (-1) 0 2 10,
        c.priority ≤ 120) := by decide

/-- C10 as amended: for every input with a nonnegative `current_depth`
(the worker always passes the row's depth, which the queue keeps
nonnegative), every returned candidate's priority lies in `[0, 120]` —
`ceil(blended * 100)` is at most 100 and the depth bonus
`max(0, 20 - 6 * current_depth)` is at most 20 — and at depth 0 the
bonus is exactly 20, so every candidate's priority is at least 20 and
outranks a default-priority-0 seed. -/
theorem claim10_priority_bounds (parent_url : Str) (payload : Payload)
    (html : Str) (current_depth max_depth max_links : ℤ) (g : ℚ)
    (hd : 0 ≤ current_depth) (c : FrontierCandidate)
    (hc : c ∈ frontier_candidates parent_url payload html current_depth
      max_depth max_links g) :
    0 ≤ c.priority ∧ c.priority ≤ 120 ∧ (current_depth = 0 → 20 ≤ c.priority) := by
  obtain ⟨ht, hht, rfl⟩ := mem_frontier_candidates hc
  have hb0 : 0 ≤ (mkCandidate parent_url current_depth g ht).geo_score := by
    rw [mkCandidate_geo_score]; exact clamp01_nonneg _
  have hb1 : (mkCandidate parent_url current_depth g ht).geo_score ≤ 1 := by
    rw [mkCandidate_geo_score]; exact clamp01_le_one _
  have hceil0 : (0 : ℤ) ≤ ⌈(mkCandidate parent_url current_depth g ht).geo_score * 100⌉ :=
    Int.ceil_nonneg (by positivity)
  have hceil100 : ⌈(mkCandidate parent_url current_depth g ht).geo_score * 100⌉ ≤ 100 := by
    rw [Int.ceil_le]
    push_cast
    nlinarith
  have hmax0 : (0 : ℤ) ≤ max 0 (20 - current_depth * 6) := le_max_left _ _
  have hmax20 : max 0 (20 - current_depth * 6) ≤ 20 := max_le (by omega) (by omega)
  rw [mkCandidate_priority]
  refine ⟨by omega, by omega, ?_⟩
  intro hd0
  subst hd0
  omega

/-- Witness for C10 at depth 0: the candidate of the C9 witness has
priority 48, inside `[0, 120]` and at least 20. -/
theorem claim10_priority_bounds_witness :
    (0 : ℤ) ≤ 0
    ∧ (⟨"http://a/b".toList, 171/625, 48, "host-affinity".toList⟩ : FrontierCandidate)
        ∈ frontier_candidates ("http://a/".toList)
          ⟨[], [], [], [], [⟨"http://a/b".toList, []⟩]⟩ [] 0 1 2 0
    ∧ (0 ≤ (⟨"http://a/b".toList, 171/625, 48, "host-affinity".toList⟩ : FrontierCandidate).priority
      ∧ (⟨"http://a/b".toList, 171/625, 48, "host-affinity".toList⟩ : FrontierCandidate).priority ≤ 120
      ∧ ((0 : ℤ) = 0 → 20 ≤ (⟨"http://a/b".toList, 171/625, 48, "host-affinity".toList⟩ : FrontierCandidate).priority)) := by
  refine ⟨by decide, by decide, ?_⟩
  exact claim10_priority_bounds ("http://a/".toList)
    ⟨[], [], [], [], [⟨"http://a/b".toList, []⟩]⟩ [] 0 1 2 0
    (by decide) _ (by decide)

end Stashy

namespace Stashy

/-! ### Lemmas about the string-splitting helpers -/

theorem splitOnFirst_eq_none {sep : Char} {l : Str} :
    splitOnFirst sep l = none ↔ sep ∉ l := by
  induction l with
  | nil => simp [splitOnFirst]
  | cons c rest ih =>
    simp only [splitOnFirst]
    by_cases hc : c = sep
    · simp [hc]
    · rw [if_neg hc]
      cases hsp : splitOnFirst sep rest with
      | none =>
        rw [hsp] at ih
        simp only [List.mem_cons, not_or]
        constructor
        · intro _
          exact ⟨fun h => hc h.symm, ih.mp rfl⟩
        · intro _
          trivial
      | some ab =>
        obtain ⟨a, b⟩ := ab
        rw [hsp] at ih
        simp only [List.mem_cons, not_or]
        constructor
        · intro h
          exact absurd h (by simp)
        · intro h
          obtain ⟨h1, h2⟩ := h
          exact absurd (ih.mpr h2) (by simp)

theorem splitOnFirst_eq_some {sep : Char} :
    ∀ {l a b : Str}, splitOnFirst sep l = some (a, b) →
      l = a ++ sep :: b ∧ sep ∉ a := by
  intro l
  induction l with
  | nil => intro a b h; simp [splitOnFirst] at h
  | cons c rest ih =>
    intro a b h
    simp only [splitOnFirst] at h
    by_cases hc : c = sep
    · rw [if_pos hc] at h
      obtain ⟨ha, hb⟩ : ([] : Str) = a ∧ rest = b := by
        constructor <;> [skip; skip] <;> cases h <;> rfl
      subst ha; subst hb; subst hc
      exact ⟨rfl, List.not_mem_nil _⟩
    · rw [if_neg hc] at h
      cases hsp : splitOnFirst sep rest with
      | none => rw [hsp] at h; exact absurd h (by simp)
      | some ab =>
        obtain ⟨a', b'⟩ := ab
        rw [hsp] at h
        simp only [Option.some.injEq, Prod.mk.injEq] at h
        obtain ⟨ha, hb⟩ := h
        obtain ⟨hrest, hnot⟩ := ih hsp
        subst hb
        rw [← ha, hrest]
        refine ⟨rfl, ?_⟩
        simp only [List.mem_cons, not_or]
        exact ⟨fun h => hc h.symm, hnot⟩

theorem splitOnFirst_append {sep : Char} :
    ∀ {a : Str} (b : Str), sep ∉ a →
      splitOnFirst sep (a ++ sep :: b) = some (a, b) := by
  intro a
  induction a with
  | nil => intro b _; simp [splitOnFirst]
  | cons c rest ih =>
    intro b hna
    simp only [List.mem_cons, not_or] at hna
    obtain ⟨hc, hrest⟩ := hna
    have hc2 : ¬ c = sep := fun h => hc h.symm
    simp only [List.cons_append, splitOnFirst, if_neg hc2, List.append_eq]
    rw [ih b hrest]

theorem takeWhile_append_all {p : Char → Bool} {l₁ : Str} (l₂ : Str)
    (h : ∀ a ∈ l₁, p a = true) :
    (l₁ ++ l₂).takeWhile p = l₁ ++ l₂.takeWhile p := by
  rw [List.takeWhile_append, if_pos]
  rw [List.takeWhile_eq_self_iff.mpr h]

theorem dropWhile_append_all {p : Char → Bool} {l₁ : Str} (l₂ : Str)
    (h : ∀ a ∈ l₁, p a = true) :
    (l₁ ++ l₂).dropWhile p = l₂.dropWhile p := by
  rw [List.dropWhile_append, if_pos]
  rw [List.dropWhile_eq_nil_iff.mpr]
  · rfl
  · exact fun x hx => h x hx

end Stashy

namespace Stashy

theorem splitOnFirstD_fst_not_mem (sep : Char) (l : Str) :
    sep ∉ (splitOnFirstD sep l).1 := by
  unfold splitOnFirstD
  cases hs : splitOnFirst sep l with
  | none => exact splitOnFirst_eq_none.mp hs
  | some ab =>
    obtain ⟨a, b⟩ := ab
    exact (splitOnFirst_eq_some hs).2

theorem splitOnFirstD_eq (sep : Char) (l : Str) :
    l = (splitOnFirstD sep l).1
      ++ (if (splitOnFirstD sep l).2 = [] ∧ sep ∉ l then []
          else sep :: (splitOnFirstD sep l).2)
    ∨ (splitOnFirstD sep l) = (l, []) := by
  unfold splitOnFirstD
  cases hs : splitOnFirst sep l with
  | none => exact Or.inr rfl
  | some ab =>
    obtain ⟨a, b⟩ := ab
    left
    obtain ⟨hl, hna⟩ := splitOnFirst_eq_some hs
    have hmem : sep ∈ l := by
      rw [hl]; simp
    rw [if_neg (fun hand => hand.2 hmem)]
    exact hl

theorem splitOnFirstD_fst_subset (sep : Char) (l : Str) :
    (splitOnFirstD sep l).1 ⊆ l := by
  unfold splitOnFirstD
  cases hs : splitOnFirst sep l with
  | none => exact fun x hx => hx
  | some ab =>
    obtain ⟨a, b⟩ := ab
    obtain ⟨hl, -⟩ := splitOnFirst_eq_some hs
    rw [hl]
    exact fun x hx => List.mem_append.mpr (Or.inl hx)

theorem splitOnFirstD_snd_subset (sep : Char) (l : Str) :
    (splitOnFirstD sep l).2 ⊆ l := by
  unfold splitOnFirstD
  cases hs : splitOnFirst sep l with
  | none => exact fun x hx => absurd hx (List.not_mem_nil x)
  | some ab =>
    obtain ⟨a, b⟩ := ab
    obtain ⟨hl, -⟩ := splitOnFirst_eq_some hs
    rw [hl]
    exact fun x hx => List.mem_append.mpr (Or.inr (List.mem_cons_of_mem _ hx))

theorem splitOnFirstD_fst_head (sep : Char) (l : Str) :
    (splitOnFirstD sep l).1 = [] ∨ (splitOnFirstD sep l).1.head? = l.head? := by
  unfold splitOnFirstD
  cases hs : splitOnFirst sep l with
  | none => exact Or.inr rfl
  | some ab =>
    obtain ⟨a, b⟩ := ab
    cases a with
    | nil => exact Or.inl rfl
    | cons c rest =>
      right
      obtain ⟨hl, -⟩ := splitOnFirst_eq_some hs
      rw [hl]
      rfl

theorem splitOnFirstD_fst_nil {sep : Char} {l : Str}
    (h : (splitOnFirstD sep l).1 = []) : l = [] ∨ l.head? = some sep := by
  unfold splitOnFirstD at h
  cases hs : splitOnFirst sep l with
  | none =>
    rw [hs] at h
    exact Or.inl h
  | some ab =>
    obtain ⟨a, b⟩ := ab
    rw [hs] at h
    have ha : a = [] := h
    obtain ⟨hl, -⟩ := splitOnFirst_eq_some hs
    right
    rw [hl, ha]
    rfl

theorem splitOnFirstD_of_head {sep : Char} {l : Str}
    (h : l.head? = some sep) : (splitOnFirstD sep l).1 = [] := by
  cases l with
  | nil => simp at h
  | cons c rest =>
    have hc : c = sep := by simpa using h
    subst hc
    simp [splitOnFirstD, splitOnFirst]

theorem splitOnFirstD_not_mem {sep : Char} {l : Str} (h : sep ∉ l) :
    splitOnFirstD sep l = (l, []) := by
  unfold splitOnFirstD
  rw [splitOnFirst_eq_none.mpr h]

theorem splitOnFirstD_append {sep : Char} {a : Str} (b : Str) (h : sep ∉ a) :
    splitOnFirstD sep (a ++ sep :: b) = (a, b) := by
  unfold splitOnFirstD
  rw [splitOnFirst_append b h]

theorem splitOnLast_eq_none {sep : Char} {l : Str} :
    splitOnLast sep l = none ↔ sep ∉ l := by
  unfold splitOnLast
  cases hs : splitOnFirst sep l.reverse with
  | none =>
    have := splitOnFirst_eq_none.mp hs
    simp only [List.mem_reverse] at this
    simpa using this
  | some ab =>
    obtain ⟨rb, ra⟩ := ab
    have hl := (splitOnFirst_eq_some hs).1
    have hmem : sep ∈ l := by
      rw [← List.mem_reverse, hl]
      simp
    simp [hmem]

theorem splitOnLast_eq_some {sep : Char} {l a b : Str}
    (h : splitOnLast sep l = some (a, b)) :
    l = a ++ sep :: b ∧ sep ∉ b := by
  unfold splitOnLast at h
  cases hs : splitOnFirst sep l.reverse with
  | none => rw [hs] at h; exact absurd h (by simp)
  | some ab =>
    obtain ⟨rb, ra⟩ := ab
    rw [hs] at h
    simp only [Option.some.injEq, Prod.mk.injEq] at h
    obtain ⟨ha, hb⟩ := h
    obtain ⟨hl, hnrb⟩ := splitOnFirst_eq_some hs
    constructor
    · have : l = (rb ++ sep :: ra).reverse := by
        rw [← hl, List.reverse_reverse]
      rw [this, List.reverse_append, List.reverse_cons, ← ha, ← hb]
      simp
    · rw [← hb]
      simpa using hnrb

theorem splitOnLast_append {sep : Char} (a : Str) {b : Str} (h : sep ∉ b) :
    splitOnLast sep (a ++ sep :: b) = some (a, b) := by
  unfold splitOnLast
  have hrev : (a ++ sep :: b).reverse = b.reverse ++ sep :: a.reverse := by
    rw [List.reverse_append, List.reverse_cons]
    simp
  rw [hrev, splitOnFirst_append a.reverse (by simpa using h)]
  simp

end Stashy

namespace Stashy

theorem contains_eq_mem {l : Str} {c : Char} : l.contains c = true ↔ c ∈ l :=
  List.elem_iff

theorem listStr_contains_eq_mem {l : List Str} {s : Str} :
    l.contains s = true ↔ s ∈ l :=
  List.elem_iff

theorem splitScheme_subset {u s rest : Str}
    (h : splitScheme u = some (s, rest)) : rest ⊆ u := by
  unfold splitScheme at h
  cases hs : splitOnFirst ':' u with
  | none => rw [hs] at h; exact absurd h (by simp)
  | some ab =>
    obtain ⟨pre, post⟩ := ab
    rw [hs] at h
    dsimp only at h
    cases pre with
    | nil => exact absurd h (by simp)
    | cons c cr =>
      dsimp only at h
      split at h
      · simp only [Option.some.injEq, Prod.mk.injEq] at h
        obtain ⟨-, hrest⟩ := h
        obtain ⟨hu, -⟩ := splitOnFirst_eq_some hs
        rw [hu, ← hrest]
        exact fun x hx => List.mem_append.mpr (Or.inr (List.mem_cons_of_mem _ hx))
      · exact absurd h (by simp)

theorem splitScheme_http (Y : Str) :
    splitScheme ("http".toList ++ ':' :: Y) = some ("http".toList, Y) := by
  unfold splitScheme
  rw [show ("http".toList : Str) = ['h', 't', 't', 'p'] from rfl,
    splitOnFirst_append Y (by decide)]
  rfl

theorem splitScheme_https (Y : Str) :
    splitScheme ("https".toList ++ ':' :: Y) = some ("https".toList, Y) := by
  unfold splitScheme
  rw [show ("https".toList : Str) = ['h', 't', 't', 'p', 's'] from rfl,
    splitOnFirst_append Y (by decide)]
  rfl

theorem splitNetloc_no_slashes {u : Str}
    (h : leadsWith u ("//".toList) = false) : splitNetloc u = ([], u) := by
  unfold splitNetloc
  rw [h]
  rfl

theorem splitNetloc_slashes (z : Str) :
    splitNetloc ('/' :: '/' :: z) =
      (z.takeWhile (fun c => !isNetlocDelim c),
       z.dropWhile (fun c => !isNetlocDelim c)) := by
  unfold splitNetloc
  rw [show leadsWith ('/' :: '/' :: z) ("//".toList) = true by simp [leadsWith]]
  rfl

theorem splitNetloc_netloc_not_delim (u : Str) :
    ∀ c ∈ (splitNetloc u).1, isNetlocDelim c = false := by
  unfold splitNetloc
  split
  · intro c hc
    have := List.mem_takeWhile_imp hc
    simpa using this
  · intro c hc
    exact absurd hc (List.not_mem_nil c)

theorem splitNetloc_netloc_subset (u : Str) : (splitNetloc u).1 ⊆ u := by
  unfold splitNetloc
  split
  · exact fun x hx =>
      List.drop_subset 2 u (List.takeWhile_subset _ hx)
  · exact fun x hx => absurd hx (List.not_mem_nil x)

theorem splitNetloc_rest_subset (u : Str) : (splitNetloc u).2 ⊆ u := by
  unfold splitNetloc
  split
  · exact fun x hx =>
      List.drop_subset 2 u (List.dropWhile_subset _ hx)
  · exact fun x hx => hx

theorem splitNetloc_rest_head (u : Str) {c : Char}
    (hne : (splitNetloc u).1 ≠ [])
    (hc : (splitNetloc u).2.head? = some c) :
    isNetlocDelim c = true := by
  unfold splitNetloc at hne hc
  by_cases hl : leadsWith u ("//".toList) = true
  · rw [if_pos hl] at hc
    have := List.head?_dropWhile_not (fun c => !isNetlocDelim c) (u.drop 2)
    rw [hc] at this
    simpa using this
  · rw [if_neg hl] at hne
    exact absurd rfl hne

theorem splitParams_stable (u : Str) :
    splitParams ((splitParams u).1) = ((splitParams u).1, [])
    ∨ ';' ∉ (splitParams u).1 := by
  cases hp : splitParams u with
  | mk P1 P2 =>
    unfold splitParams at hp
    cases hsl : splitOnLast '/' u with
    | some ab =>
      obtain ⟨a, b⟩ := ab
      rw [hsl] at hp
      dsimp only at hp
      obtain ⟨-, hnb⟩ := splitOnLast_eq_some hsl
      cases hsf : splitOnFirst ';' b with
      | none =>
        rw [hsf] at hp
        dsimp only at hp
        injection hp with hp1 hp2
        subst hp1
        left
        dsimp only
        unfold splitParams
        rw [hsl]
        dsimp only
        rw [hsf]
      | some b12 =>
        obtain ⟨b1, b2⟩ := b12
        rw [hsf] at hp
        dsimp only at hp
        injection hp with hp1 hp2
        subst hp1
        obtain ⟨hb, hnb1⟩ := splitOnFirst_eq_some hsf
        have hnb1s : '/' ∉ b1 := by
          intro hmem
          exact hnb (hb ▸ List.mem_append.mpr (Or.inl hmem))
        left
        dsimp only
        unfold splitParams
        rw [splitOnLast_append a hnb1s]
        dsimp only
        rw [splitOnFirst_eq_none.mpr hnb1]
    | none =>
      rw [hsl] at hp
      dsimp only at hp
      have hnu : '/' ∉ u := splitOnLast_eq_none.mp hsl
      cases hsf : splitOnFirst ';' u with
      | none =>
        rw [hsf] at hp
        dsimp only at hp
        injection hp with hp1 hp2
        subst hp1
        left
        dsimp only
        unfold splitParams
        rw [hsl]
        dsimp only
        rw [hsf]
      | some u12 =>
        obtain ⟨u1, u2⟩ := u12
        rw [hsf] at hp
        dsimp only at hp
        injection hp with hp1 hp2
        subst hp1
        obtain ⟨-, hnu1⟩ := splitOnFirst_eq_some hsf
        right
        exact hnu1

end Stashy

namespace Stashy

theorem urlsplitM_eq (ds u : Str) :
    ∃ rest : Str,
      rest ⊆ ((u.dropWhile isC0OrSpace).filter (fun c => !isUnsafeUrlByte c))
      ∧ urlsplitM ds u =
        ⟨(urlsplitM ds u).scheme,
         (splitNetloc rest).1,
         (splitOnFirstD '?' (splitOnFirstD '#' (splitNetloc rest).2).1).1,
         (splitOnFirstD '?' (splitOnFirstD '#' (splitNetloc rest).2).1).2,
         (splitOnFirstD '#' (splitNetloc rest).2).2⟩ := by
  unfold urlsplitM
  dsimp only
  cases hss : splitScheme ((u.dropWhile isC0OrSpace).filter (fun c => !isUnsafeUrlByte c)) with
  | none =>
    refine ⟨(u.dropWhile isC0OrSpace).filter (fun c => !isUnsafeUrlByte c),
      fun x hx => hx, ?_⟩
    rfl
  | some sr =>
    obtain ⟨s, r⟩ := sr
    refine ⟨r, splitScheme_subset hss, ?_⟩
    rfl

theorem urlsplitM_spec (ds u : Str) :
    (∀ c ∈ (urlsplitM ds u).netloc, isNetlocDelim c = false)
    ∧ (∀ c ∈ (urlsplitM ds u).netloc, isUnsafeUrlByte c = false)
    ∧ (∀ c ∈ (urlsplitM ds u).path, isUnsafeUrlByte c = false)
    ∧ (∀ c ∈ (urlsplitM ds u).query, isUnsafeUrlByte c = false)
    ∧ '#' ∉ (urlsplitM ds u).path
    ∧ '?' ∉ (urlsplitM ds u).path
    ∧ '#' ∉ (urlsplitM ds u).query
    ∧ ((urlsplitM ds u).netloc ≠ [] →
        ((urlsplitM ds u).path = [] ∨ (urlsplitM ds u).path.head? = some '/')) := by
  obtain ⟨rest, hsub, heq⟩ := urlsplitM_eq ds u
  have hclean : ∀ c ∈ rest, isUnsafeUrlByte c = false := by
    intro c hc
    have := List.of_mem_filter (hsub hc)
    simpa using this
  have hnet : (urlsplitM ds u).netloc = (splitNetloc rest).1 := by rw [heq]
  have hpath : (urlsplitM ds u).path =
      (splitOnFirstD '?' (splitOnFirstD '#' (splitNetloc rest).2).1).1 := by rw [heq]
  have hquery : (urlsplitM ds u).query =
      (splitOnFirstD '?' (splitOnFirstD '#' (splitNetloc rest).2).1).2 := by rw [heq]
  have hpath_sub : (urlsplitM ds u).path ⊆ (splitOnFirstD '#' (splitNetloc rest).2).1 := by
    rw [hpath]; exact splitOnFirstD_fst_subset _ _
  have hquery_sub : (urlsplitM ds u).query ⊆ (splitOnFirstD '#' (splitNetloc rest).2).1 := by
    rw [hquery]; exact splitOnFirstD_snd_subset _ _
  have hfr_sub : (splitOnFirstD '#' (splitNetloc rest).2).1 ⊆ rest := fun x hx =>
    splitNetloc_rest_subset rest (splitOnFirstD_fst_subset _ _ hx)
  refine ⟨?_, ?_, ?_, ?_, ?_, ?_, ?_, ?_⟩
  · rw [hnet]; exact splitNetloc_netloc_not_delim rest
  · rw [hnet]; exact fun c hc => hclean c (splitNetloc_netloc_subset rest hc)
  · exact fun c hc => hclean c (hfr_sub (hpath_sub hc))
  · exact fun c hc => hclean c (hfr_sub (hquery_sub hc))
  · exact fun hmem => splitOnFirstD_fst_not_mem '#' _ (hpath_sub hmem)
  · rw [hpath]; exact splitOnFirstD_fst_not_mem '?' _
  · exact fun hmem => splitOnFirstD_fst_not_mem '#' _ (hquery_sub hmem)
  · intro hne
    by_cases hpnil : (urlsplitM ds u).path = []
    · exact Or.inl hpnil
    right
    rw [hnet] at hne
    rw [hpath] at hpnil ⊢
    have hfr_ne : (splitOnFirstD '#' (splitNetloc rest).2).1 ≠ [] := by
      intro hfr
      rw [hfr] at hpnil
      exact hpnil (by rfl)
    have hnr_ne : (splitNetloc rest).2 ≠ [] := by
      intro hnr
      rw [hnr] at hfr_ne
      exact hfr_ne (by rfl)
    obtain ⟨c, hc⟩ : ∃ c, (splitNetloc rest).2.head? = some c := by
      cases hh : (splitNetloc rest).2 with
      | nil => exact absurd hh hnr_ne
      | cons c cs => exact ⟨c, rfl⟩
    have hdelim := splitNetloc_rest_head rest hne hc
    have hcc : c = '/' ∨ c = '?' ∨ c = '#' := by
      simp only [isNetlocDelim, Bool.or_eq_true, decide_eq_true_eq] at hdelim
      tauto
    rcases hcc with rfl | rfl | rfl
    · have h1 := splitOnFirstD_fst_head '#' (splitNetloc rest).2
      rcases h1 with h1 | h1
      · exact absurd h1 hfr_ne
      · have h2 := splitOnFirstD_fst_head '?' (splitOnFirstD '#' (splitNetloc rest).2).1
        rcases h2 with h2 | h2
        · exact absurd h2 hpnil
        · rw [h2, h1, hc]
    · have h1 := splitOnFirstD_fst_head '#' (splitNetloc rest).2
      rcases h1 with h1 | h1
      · exact absurd h1 hfr_ne
      · have : (splitOnFirstD '?' (splitOnFirstD '#' (splitNetloc rest).2).1).1 = [] :=
          splitOnFirstD_of_head (by rw [h1, hc])
        exact absurd this hpnil
    · have : (splitOnFirstD '#' (splitNetloc rest).2).1 = [] :=
        splitOnFirstD_of_head hc
      exact absurd this hfr_ne

end Stashy

namespace Stashy

theorem urlsplitM_scheme_step {s : Str}
    (hs : s = "http".toList ∨ s = "https".toList) (Y : Str)
    (hY : ∀ c ∈ Y, isUnsafeUrlByte c = false) :
    urlsplitM [] (s ++ ':' :: Y) =
      ⟨s, (splitNetloc Y).1,
       (splitOnFirstD '?' (splitOnFirstD '#' (splitNetloc Y).2).1).1,
       (splitOnFirstD '?' (splitOnFirstD '#' (splitNetloc Y).2).1).2,
       (splitOnFirstD '#' (splitNetloc Y).2).2⟩ := by
  have hfilter : (s ++ ':' :: Y).filter (fun c => !isUnsafeUrlByte c) = s ++ ':' :: Y := by
    rw [List.filter_eq_self]
    intro a ha
    rcases List.mem_append.mp ha with hmem | hmem
    · rcases hs with rfl | rfl
      · have : ∀ c ∈ ("http".toList : Str), (!isUnsafeUrlByte c) = true := by decide
        exact this a hmem
      · have : ∀ c ∈ ("https".toList : Str), (!isUnsafeUrlByte c) = true := by decide
        exact this a hmem
    · rcases List.mem_cons.mp hmem with rfl | hmem2
      · decide
      · simp [hY a hmem2]
  have hdrop : (s ++ ':' :: Y).dropWhile isC0OrSpace = s ++ ':' :: Y := by
    rcases hs with rfl | rfl
    · rw [show ("http".toList : Str) ++ ':' :: Y = 'h' :: ("ttp".toList ++ ':' :: Y) from rfl,
        List.dropWhile_cons, if_neg (by decide)]
    · rw [show ("https".toList : Str) ++ ':' :: Y = 'h' :: ("ttps".toList ++ ':' :: Y) from rfl,
        List.dropWhile_cons, if_neg (by decide)]
  have hscheme : splitScheme (s ++ ':' :: Y) = some (s, Y) := by
    rcases hs with rfl | rfl
    · exact splitScheme_http Y
    · exact splitScheme_https Y
  unfold urlsplitM
  dsimp only
  rw [hdrop, hfilter, hscheme]

theorem rest_steps (p q : Str) (hp1 : '#' ∉ p) (hp2 : '?' ∉ p) (hq1 : '#' ∉ q) :
    splitOnFirstD '#' (p ++ (if q = [] then [] else '?' :: q))
        = (p ++ (if q = [] then [] else '?' :: q), [])
    ∧ splitOnFirstD '?' (p ++ (if q = [] then [] else '?' :: q)) = (p, q) := by
  by_cases hq : q = []
  · subst hq
    rw [if_pos rfl, List.append_nil]
    exact ⟨splitOnFirstD_not_mem hp1, splitOnFirstD_not_mem hp2⟩
  · rw [if_neg hq]
    constructor
    · refine splitOnFirstD_not_mem ?_
      intro hmem
      rcases List.mem_append.mp hmem with h | h
      · exact hp1 h
      · rcases List.mem_cons.mp h with h2 | h2
        · exact absurd h2 (by decide)
        · exact hq1 h2
    · exact splitOnFirstD_append q hp2

end Stashy

namespace Stashy

theorem urlunsplitM_canonical {s : Str} (n p q : Str) (hs_ne : s ≠ [])
    (hhead : (n ≠ [] ∨ leadsWith p ("//".toList) = true) → p.head? = some '/') :
    urlunsplitM s n p q [] =
      s ++ ':' :: ((if n ≠ [] ∨ leadsWith p ("//".toList) = true
          then '/' :: '/' :: (n ++ p) else p)
        ++ (if q = [] then [] else '?' :: q)) := by
  unfold urlunsplitM
  dsimp only
  rw [if_neg (show ¬(([] : Str) ≠ []) from fun h => h rfl)]
  by_cases hbr : n ≠ [] ∨ leadsWith p ("//".toList) = true
  · rw [if_pos hbr, if_pos hbr,
      if_neg (show ¬(p ≠ [] ∧ p.head? ≠ some '/') from fun hand => hand.2 (hhead hbr)),
      if_pos hs_ne]
    by_cases hq : q = []
    · subst hq
      rw [if_neg (show ¬(([] : Str) ≠ []) from fun h => h rfl),
        if_pos (show ([] : Str) = [] from rfl), List.append_nil]
    · rw [if_pos (show q ≠ [] from hq), if_neg (show ¬(q = []) from hq)]
      simp [List.append_assoc]
  · rw [if_neg hbr, if_neg hbr, if_pos hs_ne]
    by_cases hq : q = []
    · subst hq
      rw [if_neg (show ¬(([] : Str) ≠ []) from fun h => h rfl),
        if_pos (show ([] : Str) = [] from rfl), List.append_nil]
    · rw [if_pos (show q ≠ [] from hq), if_neg (show ¬(q = []) from hq)]
      simp [List.append_assoc]

theorem urlsplitM_unsplit_roundtrip
    {s n p q : Str}
    (hs : s = "http".toList ∨ s = "https".toList)
    (hn1 : ∀ c ∈ n, isNetlocDelim c = false)
    (hn2 : ∀ c ∈ n, isUnsafeUrlByte c = false)
    (hp1 : '#' ∉ p) (hp2 : '?' ∉ p) (hp3 : p ≠ [])
    (hp4 : ∀ c ∈ p, isUnsafeUrlByte c = false)
    (hq1 : '#' ∉ q) (hq2 : ∀ c ∈ q, isUnsafeUrlByte c = false)
    (hnp : n ≠ [] → p.head? = some '/') :
    urlsplitM [] (urlunsplitM s n p q []) = ⟨s, n, p, q, []⟩ := by
  have hhead : (n ≠ [] ∨ leadsWith p ("//".toList) = true) → p.head? = some '/' := by
    intro hbr
    rcases hbr with hne | hlw
    · exact hnp hne
    · cases p with
      | nil => simp [leadsWith] at hlw
      | cons c p2 =>
        cases p2 with
        | nil => simp [leadsWith] at hlw
        | cons d p3 =>
          have hc : c = '/' := by
            by_contra hcc
            simp [leadsWith, hcc] at hlw
          subst hc
          rfl
  have hs_ne : s ≠ [] := by rcases hs with rfl | rfl <;> decide
  have hqt_clean : ∀ c ∈ (if q = [] then ([] : Str) else '?' :: q),
      isUnsafeUrlByte c = false := by
    by_cases hq : q = []
    · subst hq; simp
    · rw [if_neg hq]
      intro c hc
      rcases List.mem_cons.mp hc with rfl | h
      · decide
      · exact hq2 c h
  obtain ⟨hfrag, hquery⟩ := rest_steps p q hp1 hp2 hq1
  rw [urlunsplitM_canonical n p q hs_ne hhead]
  by_cases hbr : n ≠ [] ∨ leadsWith p ("//".toList) = true
  · rw [if_pos hbr]
    have hsh : ('/' :: '/' :: (n ++ p)) ++ (if q = [] then ([] : Str) else '?' :: q)
        = '/' :: '/' :: ((n ++ p) ++ (if q = [] then ([] : Str) else '?' :: q)) := by
      simp
    rw [hsh]
    have hYclean : ∀ c ∈ ('/' :: '/' ::
        ((n ++ p) ++ (if q = [] then ([] : Str) else '?' :: q))),
        isUnsafeUrlByte c = false := by
      intro c hc
      rcases List.mem_cons.mp hc with rfl | hc2
      · decide
      rcases List.mem_cons.mp hc2 with rfl | hc3
      · decide
      rcases List.mem_append.mp hc3 with h | h
      · rcases List.mem_append.mp h with h2 | h2
        · exact hn2 c h2
        · exact hp4 c h2
      · exact hqt_clean c h
    rw [urlsplitM_scheme_step hs _ hYclean, splitNetloc_slashes]
    obtain ⟨p2, hp_eq⟩ : ∃ p2, p = '/' :: p2 := by
      have hh := hhead hbr
      cases p with
      | nil => simp at hh
      | cons c cr =>
        have : c = '/' := by simpa using hh
        exact ⟨cr, by rw [this]⟩
    have hassoc : (n ++ p) ++ (if q = [] then ([] : Str) else '?' :: q)
        = n ++ (p ++ (if q = [] then ([] : Str) else '?' :: q)) := by
      simp
    have htw : ((n ++ p) ++ (if q = [] then ([] : Str) else '?' :: q)).takeWhile
        (fun c => !isNetlocDelim c) = n := by
      rw [hassoc, takeWhile_append_all _ (fun a ha => by simp [hn1 a ha]), hp_eq]
      rw [show ('/' :: p2) ++ (if q = [] then ([] : Str) else '?' :: q)
          = '/' :: (p2 ++ (if q = [] then ([] : Str) else '?' :: q)) from rfl]
      rw [List.takeWhile_cons, if_neg (by decide)]
      simp
    have hdw : ((n ++ p) ++ (if q = [] then ([] : Str) else '?' :: q)).dropWhile
        (fun c => !isNetlocDelim c) = p ++ (if q = [] then ([] : Str) else '?' :: q) := by
      rw [hassoc, dropWhile_append_all _ (fun a ha => by simp [hn1 a ha]), hp_eq]
      rw [show ('/' :: p2) ++ (if q = [] then ([] : Str) else '?' :: q)
          = '/' :: (p2 ++ (if q = [] then ([] : Str) else '?' :: q)) from rfl]
      rw [List.dropWhile_cons, if_neg (by decide)]
    rw [htw, hdw, hfrag]
    dsimp only
    rw [hquery]
  · rw [if_neg hbr]
    have hn_nil : n = [] := by
      by_contra hcon
      exact hbr (Or.inl hcon)
    have hlw : leadsWith p ("//".toList) = false := by
      cases hlww : leadsWith p ("//".toList) with
      | false => rfl
      | true => exact absurd (Or.inr hlww) hbr
    have hYlw : leadsWith (p ++ (if q = [] then ([] : Str) else '?' :: q))
        ("//".toList) = false := by
      cases hp_shape : p with
      | nil => exact absurd hp_shape hp3
      | cons c p2 =>
        by_cases hc : c = '/'
        · subst hc
          cases p2 with
          | nil =>
            by_cases hq : q = []
            · subst hq; simp [leadsWith]
            · rw [if_neg hq]; simp [leadsWith]
          | cons d p3 =>
            have hd : ¬ d = '/' := by
              intro hdd
              subst hdd
              rw [hp_shape] at hlw
              simp [leadsWith] at hlw
            simp [leadsWith, hd]
        · simp [leadsWith, hc]
    have hYclean : ∀ c ∈ (p ++ (if q = [] then ([] : Str) else '?' :: q)),
        isUnsafeUrlByte c = false := by
      intro c hc
      rcases List.mem_append.mp hc with h | h
      · exact hp4 c h
      · exact hqt_clean c h
    rw [urlsplitM_scheme_step hs _ hYclean, splitNetloc_no_slashes hYlw]
    dsimp only
    rw [hfrag]
    dsimp only
    rw [hquery, hn_nil]

end Stashy

namespace Stashy

theorem urlunparseM_nil_params (s n p q f : Str) :
    urlunparseM s n p [] q f = urlunsplitM s n p q f := by
  unfold urlunparseM
  rw [if_neg (show ¬(([] : Str) ≠ []) from fun h => h rfl)]

theorem urlparseM_unsplit_roundtrip
    {s n p q : Str}
    (hs : s = "http".toList ∨ s = "https".toList)
    (hn1 : ∀ c ∈ n, isNetlocDelim c = false)
    (hn2 : ∀ c ∈ n, isUnsafeUrlByte c = false)
    (hp1 : '#' ∉ p) (hp2 : '?' ∉ p) (hp3 : p ≠ [])
    (hp4 : ∀ c ∈ p, isUnsafeUrlByte c = false)
    (hq1 : '#' ∉ q) (hq2 : ∀ c ∈ q, isUnsafeUrlByte c = false)
    (hnp : n ≠ [] → p.head? = some '/')
    (hparams : ';' ∈ p → splitParams p = (p, [])) :
    urlparseM [] (urlunsplitM s n p q []) = ⟨s, n, p, [], q, []⟩ := by
  unfold urlparseM
  rw [urlsplitM_unsplit_roundtrip hs hn1 hn2 hp1 hp2 hp3 hp4 hq1 hq2 hnp]
  dsimp only
  by_cases hsemi : ';' ∈ p
  · have hcont : usesParams.contains s = true := by
      rcases hs with rfl | rfl <;> decide
    have hb : (usesParams.contains s && p.contains ';') = true := by
      rw [hcont, contains_eq_mem.mpr hsemi]
      rfl
    rw [if_pos hb, hparams hsemi]
  · have hpc : p.contains ';' = false := by
      cases hcc : p.contains ';' with
      | false => rfl
      | true => exact absurd (contains_eq_mem.mp hcc) hsemi
    have hb : ¬((usesParams.contains s && p.contains ';') = true) := by
      rw [hpc, Bool.and_false]
      simp
    rw [if_neg hb]

theorem urlparseM_cases (ds u : Str) :
    (urlparseM ds u = ⟨(urlsplitM ds u).scheme, (urlsplitM ds u).netloc,
        (urlsplitM ds u).path, [], (urlsplitM ds u).query, (urlsplitM ds u).fragment⟩
      ∧ ¬(usesParams.contains (urlsplitM ds u).scheme = true ∧ ';' ∈ (urlsplitM ds u).path))
    ∨ (urlparseM ds u = ⟨(urlsplitM ds u).scheme, (urlsplitM ds u).netloc,
        (splitParams (urlsplitM ds u).path).1, (splitParams (urlsplitM ds u).path).2,
        (urlsplitM ds u).query, (urlsplitM ds u).fragment⟩
      ∧ ';' ∈ (urlsplitM ds u).path) := by
  unfold urlparseM
  dsimp only
  by_cases hb : (usesParams.contains (urlsplitM ds u).scheme
      && (urlsplitM ds u).path.contains ';') = true
  · right
    rw [if_pos hb]
    simp only [Bool.and_eq_true] at hb
    exact ⟨rfl, contains_eq_mem.mp hb.2⟩
  · left
    rw [if_neg hb]
    refine ⟨rfl, ?_⟩
    intro hand
    obtain ⟨hc1, hc2⟩ := hand
    apply hb
    rw [hc1, contains_eq_mem.mpr hc2]
    rfl

theorem splitParams_fst_subset (u : Str) : (splitParams u).1 ⊆ u := by
  unfold splitParams
  cases hsl : splitOnLast '/' u with
  | some ab =>
    obtain ⟨a, b⟩ := ab
    dsimp only
    obtain ⟨hu, -⟩ := splitOnLast_eq_some hsl
    cases hsf : splitOnFirst ';' b with
    | none =>
      dsimp only
      exact fun x hx => hx
    | some b12 =>
      obtain ⟨b1, b2⟩ := b12
      dsimp only
      obtain ⟨hb, -⟩ := splitOnFirst_eq_some hsf
      intro x hx
      rw [hu, hb]
      rcases List.mem_append.mp hx with h | h
      · exact List.mem_append.mpr (Or.inl h)
      · rcases List.mem_cons.mp h with rfl | h2
        · exact List.mem_append.mpr (Or.inr (List.mem_cons_self _ _))
        · exact List.mem_append.mpr (Or.inr (List.mem_cons_of_mem _
            (List.mem_append.mpr (Or.inl h2))))
  | none =>
    dsimp only
    cases hsf : splitOnFirst ';' u with
    | none =>
      dsimp only
      exact fun x hx => hx
    | some u12 =>
      obtain ⟨u1, u2⟩ := u12
      dsimp only
      obtain ⟨hu, -⟩ := splitOnFirst_eq_some hsf
      intro x hx
      rw [hu]
      exact List.mem_append.mpr (Or.inl hx)

theorem splitParams_fst_head (u : Str) :
    (splitParams u).1 = [] ∨ (splitParams u).1.head? = u.head? := by
  unfold splitParams
  cases hsl : splitOnLast '/' u with
  | some ab =>
    obtain ⟨a, b⟩ := ab
    dsimp only
    obtain ⟨hu, -⟩ := splitOnLast_eq_some hsl
    cases hsf : splitOnFirst ';' b with
    | none =>
      dsimp only
      exact Or.inr rfl
    | some b12 =>
      obtain ⟨b1, b2⟩ := b12
      dsimp only
      right
      rw [hu]
      cases a with
      | nil => rfl
      | cons x xs => rfl
  | none =>
    dsimp only
    cases hsf : splitOnFirst ';' u with
    | none =>
      dsimp only
      exact Or.inr rfl
    | some u12 =>
      obtain ⟨u1, u2⟩ := u12
      dsimp only
      obtain ⟨hu, -⟩ := splitOnFirst_eq_some hsf
      cases u1 with
      | nil => exact Or.inl rfl
      | cons x xs =>
        right
        rw [hu]
        rfl

end Stashy

namespace Stashy

/-- A character at or above `a` in the ASCII order is not a netloc
delimiter. -/
theorem isNetlocDelim_of_lc {c : Char} (h1 : 'a' ≤ c) : isNetlocDelim c = false := by
  simp only [isNetlocDelim, Bool.or_eq_false_iff, decide_eq_false_iff_not]
  refine ⟨⟨?_, ?_⟩, ?_⟩ <;> rintro rfl <;> exact absurd h1 (by decide)

/-- A character at or above `a` in the ASCII order is not an unsafe URL
byte. -/
theorem isUnsafeUrlByte_of_lc {c : Char} (h1 : 'a' ≤ c) : isUnsafeUrlByte c = false := by
  simp only [isUnsafeUrlByte, Bool.or_eq_false_iff, decide_eq_false_iff_not]
  refine ⟨⟨?_, ?_⟩, ?_⟩ <;> rintro rfl <;> exact absurd h1 (by decide)

/-- Python lowercasing preserves absence of netloc delimiters. -/
theorem pyLowerChar_not_delim {c : Char} (h : isNetlocDelim c = false) :
    isNetlocDelim (pyLowerChar c) = false := by
  rcases pyLowerChar_cases c with hc | ⟨h1, -⟩
  · rw [hc]; exact h
  · exact isNetlocDelim_of_lc h1

/-- Python lowercasing preserves absence of unsafe URL bytes. -/
theorem pyLowerChar_not_unsafe {c : Char} (h : isUnsafeUrlByte c = false) :
    isUnsafeUrlByte (pyLowerChar c) = false := by
  rcases pyLowerChar_cases c with hc | ⟨h1, -⟩
  · rw [hc]; exact h
  · exact isUnsafeUrlByte_of_lc h1

/-- `http` and `https` are schemes whose params `urlparse` would
interpret. -/
theorem usesParams_http_https {s : Str}
    (hs : s = "http".toList ∨ s = "https".toList) :
    usesParams.contains s = true := by
  rcases hs with rfl | rfl <;> decide

/-- On an accepted scheme, `canonicalize_url` is exactly the
`urlunsplit` of the lowercased netloc, defaulted path and preserved
query of the parse of the stripped input. -/
theorem canonicalize_url_eq (u : Str)
    (hs : (urlparseM [] (pyStrip u)).scheme = "http".toList ∨
          (urlparseM [] (pyStrip u)).scheme = "https".toList) :
    canonicalize_url u =
      urlunsplitM (urlparseM [] (pyStrip u)).scheme
        (pyLower (urlparseM [] (pyStrip u)).netloc)
        (if (urlparseM [] (pyStrip u)).path = [] then "/".toList
         else (urlparseM [] (pyStrip u)).path)
        (urlparseM [] (pyStrip u)).query [] := by
  unfold canonicalize_url
  dsimp only
  rw [if_pos hs, urlunparseM_nil_params]

/-- Parsing the output of `canonicalize_url` back with `urlparse`
recovers exactly the scheme, the lowercased netloc, the defaulted path,
empty params, the query, and an empty fragment. -/
theorem canonical_parse (u : Str)
    (hs : (urlparseM [] (pyStrip u)).scheme = "http".toList ∨
          (urlparseM [] (pyStrip u)).scheme = "https".toList) :
    urlparseM [] (canonicalize_url u) =
      ⟨(urlparseM [] (pyStrip u)).scheme,
       pyLower (urlparseM [] (pyStrip u)).netloc,
       (if (urlparseM [] (pyStrip u)).path = [] then "/".toList
        else (urlparseM [] (pyStrip u)).path),
       [], (urlparseM [] (pyStrip u)).query, []⟩ := by
  obtain ⟨hN1, hN2, hPc, hQc, hP1, hP2, hQ1, hNP⟩ := urlsplitM_spec [] (pyStrip u)
  rw [canonicalize_url_eq u hs]
  rcases urlparseM_cases [] (pyStrip u) with ⟨hEq, hcond⟩ | ⟨hEq, hmem⟩
  · have hs' : (urlsplitM [] (pyStrip u)).scheme = "http".toList ∨
        (urlsplitM [] (pyStrip u)).scheme = "https".toList := by
      rw [hEq] at hs
      exact hs
    rw [hEq]
    dsimp only
    refine urlparseM_unsplit_roundtrip hs' ?_ ?_ ?_ ?_ ?_ ?_ ?_ ?_ ?_ ?_
    · intro c hc
      obtain ⟨d, hd, rfl⟩ := List.mem_map.mp hc
      exact pyLowerChar_not_delim (hN1 d hd)
    · intro c hc
      obtain ⟨d, hd, rfl⟩ := List.mem_map.mp hc
      exact pyLowerChar_not_unsafe (hN2 d hd)
    · by_cases hpe : (urlsplitM [] (pyStrip u)).path = []
      · rw [if_pos hpe]; decide
      · rw [if_neg hpe]; exact hP1
    · by_cases hpe : (urlsplitM [] (pyStrip u)).path = []
      · rw [if_pos hpe]; decide
      · rw [if_neg hpe]; exact hP2
    · by_cases hpe : (urlsplitM [] (pyStrip u)).path = []
      · rw [if_pos hpe]; decide
      · rw [if_neg hpe]; exact hpe
    · by_cases hpe : (urlsplitM [] (pyStrip u)).path = []
      · rw [if_pos hpe]; intro c hc; rcases List.mem_cons.mp hc with rfl | hc2
        · decide
        · exact absurd hc2 (List.not_mem_nil c)
      · rw [if_neg hpe]; exact hPc
    · exact hQ1
    · exact hQc
    · intro hne
      have hne' : (urlsplitM [] (pyStrip u)).netloc ≠ [] := by
        intro hx
        exact hne (by rw [hx]; rfl)
      by_cases hpe : (urlsplitM [] (pyStrip u)).path = []
      · rw [if_pos hpe]; rfl
      · rw [if_neg hpe]
        rcases hNP hne' with h | h
        · exact absurd h hpe
        · exact h
    · intro hmem2
      by_cases hpe : (urlsplitM [] (pyStrip u)).path = []
      · rw [if_pos hpe] at hmem2
        rcases List.mem_cons.mp hmem2 with h | h
        · exact absurd h (by decide)
        · exact absurd h (List.not_mem_nil _)
      · rw [if_neg hpe] at hmem2
        exact absurd ⟨usesParams_http_https hs', hmem2⟩ hcond
  · have hs' : (urlsplitM [] (pyStrip u)).scheme = "http".toList ∨
        (urlsplitM [] (pyStrip u)).scheme = "https".toList := by
      rw [hEq] at hs
      exact hs
    rw [hEq]
    dsimp only
    refine urlparseM_unsplit_roundtrip hs' ?_ ?_ ?_ ?_ ?_ ?_ ?_ ?_ ?_ ?_
    · intro c hc
      obtain ⟨d, hd, rfl⟩ := List.mem_map.mp hc
      exact pyLowerChar_not_delim (hN1 d hd)
    · intro c hc
      obtain ⟨d, hd, rfl⟩ := List.mem_map.mp hc
      exact pyLowerChar_not_unsafe (hN2 d hd)
    · by_cases hpe : (splitParams (urlsplitM [] (pyStrip u)).path).1 = []
      · rw [if_pos hpe]; decide
      · rw [if_neg hpe]
        intro hx
        exact hP1 (splitParams_fst_subset _ hx)
    · by_cases hpe : (splitParams (urlsplitM [] (pyStrip u)).path).1 = []
      · rw [if_pos hpe]; decide
      · rw [if_neg hpe]
        intro hx
        exact hP2 (splitParams_fst_subset _ hx)
    · by_cases hpe : (splitParams (urlsplitM [] (pyStrip u)).path).1 = []
      · rw [if_pos hpe]; decide
      · rw [if_neg hpe]; exact hpe
    · by_cases hpe : (splitParams (urlsplitM [] (pyStrip u)).path).1 = []
      · rw [if_pos hpe]; intro c hc; rcases List.mem_cons.mp hc with rfl | hc2
        · decide
        · exact absurd hc2 (List.not_mem_nil c)
      · rw [if_neg hpe]
        intro c hc
        exact hPc c (splitParams_fst_subset _ hc)
    · exact hQ1
    · exact hQc
    · intro hne
      have hne' : (urlsplitM [] (pyStrip u)).netloc ≠ [] := by
        intro hx
        exact hne (by rw [hx]; rfl)
      by_cases hpe : (splitParams (urlsplitM [] (pyStrip u)).path).1 = []
      · rw [if_pos hpe]; rfl
      · rw [if_neg hpe]
        rcases splitParams_fst_head (urlsplitM [] (pyStrip u)).path with h | h
        · exact absurd h hpe
        · rw [h]
          rcases hNP hne' with h2 | h2
          · rw [h2] at hmem
            exact absurd hmem (List.not_mem_nil _)
          · exact h2
    · intro hmem2
      by_cases hpe : (splitParams (urlsplitM [] (pyStrip u)).path).1 = []
      · rw [if_pos hpe] at hmem2
        rcases List.mem_cons.mp hmem2 with h | h
        · exact absurd h (by decide)
        · exact absurd h (List.not_mem_nil _)
      · rw [if_neg hpe] at hmem2 ⊢
        rcases splitParams_stable (urlsplitM [] (pyStrip u)).path with h | h
        · exact h
        · exact absurd hmem2 h

end Stashy

namespace Stashy

/-- C7 counterexample: `canonicalize_url` does not drop the user-info
component of the netloc; it lowercases the whole netloc, user-info
included, so `"https://User@Example.com/p"` canonicalizes to
`"https://user@example.com/p"` and not to `"https://example.com/p"`. -/
theorem claim7_counterexample :
    canonicalize_url ("https://User@Example.com/p".toList)
      = "https://user@example.com/p".toList
    ∧ canonicalize_url ("https://User@Example.com/p".toList)
      ≠ "https://example.com/p".toList := by decide

/-- C7 as amended: for every URL whose parsed scheme is `http` or
`https`, re-parsing the output of `canonicalize_url` yields the same
scheme, the whole netloc lowercased (user-info, when present, is kept,
only lowercased — not dropped), the path defaulted to `/` when empty,
empty params, the query preserved, and an empty fragment; and the S1
example holds:
`canonicalize_url "https://Example.com/maps/path#frag" =
"https://example.com/maps/path"`. -/
theorem claim7_amended (u : Str)
    (hs : (urlparseM [] (pyStrip u)).scheme = "http".toList ∨
          (urlparseM [] (pyStrip u)).scheme = "https".toList) :
    urlparseM [] (canonicalize_url u) =
      ⟨(urlparseM [] (pyStrip u)).scheme,
       pyLower (urlparseM [] (pyStrip u)).netloc,
       (if (urlparseM [] (pyStrip u)).path = [] then "/".toList
        else (urlparseM [] (pyStrip u)).path),
       [], (urlparseM [] (pyStrip u)).query, []⟩
    ∧ canonicalize_url ("https://Example.com/maps/path#frag".toList)
        = "https://example.com/maps/path".toList :=
  ⟨canonical_parse u hs, by decide⟩

/-- C7 witness: the amended statement applied to the S1 input
`"https://Example.com/maps/path#frag"`, whose parsed scheme is
`https`. -/
theorem claim7_amended_witness :
    ((urlparseM [] (pyStrip ("https://Example.com/maps/path#frag".toList))).scheme
        = "http".toList ∨
     (urlparseM [] (pyStrip ("https://Example.com/maps/path#frag".toList))).scheme
        = "https".toList)
    ∧ (urlparseM [] (canonicalize_url ("https://Example.com/maps/path#frag".toList)) =
        ⟨(urlparseM [] (pyStrip ("https://Example.com/maps/path#frag".toList))).scheme,
         pyLower (urlparseM []
           (pyStrip ("https://Example.com/maps/path#frag".toList))).netloc,
         (if (urlparseM [] (pyStrip ("https://Example.com/maps/path#frag".toList))).path
              = []
          then "/".toList
          else (urlparseM []
            (pyStrip ("https://Example.com/maps/path#frag".toList))).path),
         [],
         (urlparseM [] (pyStrip ("https://Example.com/maps/path#frag".toList))).query,
         []⟩
      ∧ canonicalize_url ("https://Example.com/maps/path#frag".toList)
          = "https://example.com/maps/path".toList) :=
  ⟨Or.inr (by decide), claim7_amended _ (Or.inr (by decide))⟩

end Stashy

namespace Stashy

/-- C8 counterexample: `canonicalize_url` is not idempotent on all
inputs.  On `"http://a/x #f"` the first pass keeps the trailing space
left by cutting the fragment (`"http://a/x "`), and the second pass
strips it (`"http://a/x"`). -/
theorem claim8_counterexample :
    canonicalize_url (canonicalize_url ("http://a/x #f".toList))
      ≠ canonicalize_url ("http://a/x #f".toList) := by decide

/-- C8 as amended: `canonicalize_url` is idempotent on every input
whose canonical form is stable under `str.strip()` (in particular on
every output with no trailing whitespace in the path); the failure mode
is exactly a canonical form with leading or trailing whitespace.  The
scheme filter holds unconditionally: every URL whose parsed scheme is
not `http`/`https` canonicalizes to the empty string, in particular
`canonicalize_url "mailto:x@y" = ""` (S2). -/
theorem claim8_amended (u v : Str)
    (hstrip : pyStrip (canonicalize_url u) = canonicalize_url u)
    (hv : ¬((urlparseM [] (pyStrip v)).scheme = "http".toList ∨
            (urlparseM [] (pyStrip v)).scheme = "https".toList)) :
    canonicalize_url (canonicalize_url u) = canonicalize_url u
    ∧ canonicalize_url v = []
    ∧ canonicalize_url ("mailto:x@y".toList) = [] := by
  refine ⟨?_, ?_, by decide⟩
  · by_cases hs : (urlparseM [] (pyStrip u)).scheme = "http".toList ∨
        (urlparseM [] (pyStrip u)).scheme = "https".toList
    · have hparse : urlparseM [] (pyStrip (canonicalize_url u)) =
          ⟨(urlparseM [] (pyStrip u)).scheme,
           pyLower (urlparseM [] (pyStrip u)).netloc,
           (if (urlparseM [] (pyStrip u)).path = [] then "/".toList
            else (urlparseM [] (pyStrip u)).path),
           [], (urlparseM [] (pyStrip u)).query, []⟩ := by
        rw [hstrip]
        exact canonical_parse u hs
      have hsC : (urlparseM [] (pyStrip (canonicalize_url u))).scheme = "http".toList ∨
          (urlparseM [] (pyStrip (canonicalize_url u))).scheme = "https".toList := by
        rw [hparse]
        exact hs
      rw [canonicalize_url_eq (canonicalize_url u) hsC, hparse]
      dsimp only
      have hp_ne : (if (urlparseM [] (pyStrip u)).path = [] then "/".toList
          else (urlparseM [] (pyStrip u)).path) ≠ [] := by
        by_cases hpe : (urlparseM [] (pyStrip u)).path = []
        · rw [if_pos hpe]; decide
        · rw [if_neg hpe]; exact hpe
      rw [if_neg hp_ne, pyLower_idem, canonicalize_url_eq u hs]
    · have h0 : canonicalize_url u = [] := by
        unfold canonicalize_url
        dsimp only
        rw [if_neg hs]
      rw [h0]
      decide
  · unfold canonicalize_url
    dsimp only
    rw [if_neg hv]

/-- C8 witness: the amended statement applied to the S1 URL (whose
canonical form `"https://example.com/maps/path"` is strip-stable) and,
for the scheme filter, to the S2 URL `"mailto:x@y"`. -/
theorem claim8_amended_witness :
    pyStrip (canonicalize_url ("https://Example.com/maps/path#frag".toList))
        = canonicalize_url ("https://Example.com/maps/path#frag".toList)
    ∧ ¬((urlparseM [] (pyStrip ("mailto:x@y".toList))).scheme = "http".toList ∨
        (urlparseM [] (pyStrip ("mailto:x@y".toList))).scheme = "https".toList)
    ∧ (canonicalize_url (canonicalize_url ("https://Example.com/maps/path#frag".toList))
          = canonicalize_url ("https://Example.com/maps/path#frag".toList)
      ∧ canonicalize_url ("mailto:x@y".toList) = []
      ∧ canonicalize_url ("mailto:x@y".toList) = []) :=
  ⟨by decide, by decide, claim8_amended _ _ (by decide) (by decide)⟩

end Stashy
